import Mathlib

/-!
Verification of the experiment scheduling core (`src/experiments.rs`).

The module is embedded shallowly: the persisted `experiments` table is a list
of raw rows (`ExperimentDBRecord`), the domain object is `Experiment`, and
every SQL statement of the source is modelled as an explicit, executable
function over the `Database` state.  Timestamps (`chrono::DateTime<Utc>`) are
modelled as natural numbers, with the clock passed explicitly wherever the
source calls `Utc::now()`.
-/

set_option maxRecDepth 20000

namespace Crater

/-- Characters treated as whitespace by `str::trim` in the source (modelled
on the ASCII part of Unicode `White_Space`, which covers every text this
development manipulates). -/
def isWS (c : Char) : Bool :=
  c = ' ' || c = '\t' || c = '\n' || c = '\r' || c = '\x0b' || c = '\x0c'

/-- `trimEmpty s` holds exactly when `s.trim().is_empty()` holds in the
source, i.e. every character of `s` is whitespace. -/
def trimEmpty (s : String) : Bool := s.data.all isWS

/-- `input.splitn(2, ':')` from the source: the characters before the first
`':'`, and — when a `':'` occurs at all — everything after it. -/
def splitColon : List Char → List Char × Option (List Char)
  | [] => ([], none)
  | c :: cs =>
    if c = ':' then ([], some cs)
    else
      let r := splitColon cs
      (c :: r.1, r.2)

/-- `Status` from the `string_enum!` table in the source. -/
inductive Status
  | Queued
  | Running
  | NeedsReport
  | Failed
  | GeneratingReport
  | ReportFailed
  | Completed
deriving DecidableEq

/-- Canonical string of each `Status` variant, from the table in the source. -/
def Status.toStr : Status → String
  | .Queued => "queued"
  | .Running => "running"
  | .NeedsReport => "needs-report"
  | .Failed => "failed"
  | .GeneratingReport => "generating-report"
  | .ReportFailed => "report-failed"
  | .Completed => "completed"

/-- `Mode` from the `string_enum!` table in the source. -/
inductive Mode
  | BuildAndTest
  | BuildOnly
  | CheckOnly
  | Clippy
  | Rustdoc
  | UnstableFeatures
deriving DecidableEq

/-- Canonical string of each `Mode` variant, from the table in the source. -/
def Mode.toStr : Mode → String
  | .BuildAndTest => "build-and-test"
  | .BuildOnly => "build-only"
  | .CheckOnly => "check-only"
  | .Clippy => "clippy"
  | .Rustdoc => "rustdoc"
  | .UnstableFeatures => "unstable-features"

/-- `CrateSelect` from the `string_enum!` table in the source. -/
inductive CrateSelect
  | Full
  | Demo
  | SmallRandom
  | Top100
  | Local
  | Dummy
deriving DecidableEq

/-- Canonical string of each `CrateSelect` variant, from the source table. -/
def CrateSelect.toStr : CrateSelect → String
  | .Full => "full"
  | .Demo => "demo"
  | .SmallRandom => "small-random"
  | .Top100 => "top-100"
  | .Local => "local"
  | .Dummy => "dummy"

/-- `CapLints` from the `string_enum!` table in the source. -/
inductive CapLints
  | Allow
  | Warn
  | Deny
  | Forbid
deriving DecidableEq

/-- Canonical string of each `CapLints` variant, from the source table. -/
def CapLints.toStr : CapLints → String
  | .Allow => "allow"
  | .Warn => "warn"
  | .Deny => "deny"
  | .Forbid => "forbid"

/-- The error kinds of `AssigneeParseError` in the source. -/
inductive AssigneeParseError
  | Empty
  | UnexpectedPayload
  | InvalidKind (kind : String)
deriving DecidableEq

/-- Errors surfaced by the row-to-domain conversion: an unknown variant of a
string-backed enumeration, or an assignee parse error. -/
inductive ConvError
  | unknownVariant (text : String)
  | assignee (err : AssigneeParseError)
deriving DecidableEq

/-- Modelled from the spec: the `string_enum!` macro (declared outside this
module) generates a parser mapping each canonical string back to its variant
and failing with an unknown-variant error carrying the offending text. -/
def Status.fromStr (s : String) : Except ConvError Status :=
  if s = "queued" then .ok .Queued
  else if s = "running" then .ok .Running
  else if s = "needs-report" then .ok .NeedsReport
  else if s = "failed" then .ok .Failed
  else if s = "generating-report" then .ok .GeneratingReport
  else if s = "report-failed" then .ok .ReportFailed
  else if s = "completed" then .ok .Completed
  else .error (.unknownVariant s)

/-- Modelled from the spec: parser generated by `string_enum!` for `Mode`. -/
def Mode.fromStr (s : String) : Except ConvError Mode :=
  if s = "build-and-test" then .ok .BuildAndTest
  else if s = "build-only" then .ok .BuildOnly
  else if s = "check-only" then .ok .CheckOnly
  else if s = "clippy" then .ok .Clippy
  else if s = "rustdoc" then .ok .Rustdoc
  else if s = "unstable-features" then .ok .UnstableFeatures
  else .error (.unknownVariant s)

/-- Modelled from the spec: parser generated by `string_enum!` for
`CrateSelect`. -/
def CrateSelect.fromStr (s : String) : Except ConvError CrateSelect :=
  if s = "full" then .ok .Full
  else if s = "demo" then .ok .Demo
  else if s = "small-random" then .ok .SmallRandom
  else if s = "top-100" then .ok .Top100
  else if s = "local" then .ok .Local
  else if s = "dummy" then .ok .Dummy
  else .error (.unknownVariant s)

/-- Modelled from the spec: parser generated by `string_enum!` for
`CapLints`. -/
def CapLints.fromStr (s : String) : Except ConvError CapLints :=
  if s = "allow" then .ok .Allow
  else if s = "warn" then .ok .Warn
  else if s = "deny" then .ok .Deny
  else if s = "forbid" then .ok .Forbid
  else .error (.unknownVariant s)

/-- The `Assignee` tagged union of the source. -/
inductive Assignee
  | Agent (name : String)
  | CLI
deriving DecidableEq

/-- The `Display` implementation for `Assignee` in the source. -/
def assigneeToString : Assignee → String
  | .Agent name => "agent:" ++ name
  | .CLI => "cli"

/-- The `FromStr` implementation for `Assignee` in the source. -/
def Assignee.fromStr (input : String) : Except AssigneeParseError Assignee :=
  if trimEmpty input then .error .Empty
  else
    let p := splitColon input.data
    let kind : String := ⟨p.1⟩
    if kind = "agent" then
      match p.2 with
      | none => .error .Empty
      | some name =>
        if trimEmpty ⟨name⟩ then .error .Empty
        else .ok (.Agent ⟨name⟩)
    else if kind = "cli" then
      match p.2 with
      | some _ => .error .UnexpectedPayload
      | none => .ok .CLI
    else .error (.InvalidKind kind)

/-- The `GitHubIssue` record of the source. -/
structure GitHubIssue where
  api_url : String
  html_url : String
  number : Int
deriving DecidableEq

/-- The in-memory `Experiment` of the source.  `Toolchain` is an opaque
serializable identifier owned by a collaborator (spec §6) and is modelled as
its stored string. -/
structure Experiment where
  name : String
  toolchains : String × String
  mode : Mode
  cap_lints : CapLints
  priority : Int
  created_at : Nat
  started_at : Option Nat
  completed_at : Option Nat
  github_issue : Option GitHubIssue
  status : Status
  assigned_to : Option Assignee
  report_url : Option String
  ignore_blacklist : Bool
  requirement : Option String
deriving DecidableEq

/-- The raw persisted row shape `ExperimentDBRecord` of the source. -/
structure ExperimentDBRecord where
  name : String
  mode : String
  cap_lints : String
  toolchain_start : String
  toolchain_end : String
  priority : Int
  created_at : Nat
  started_at : Option Nat
  completed_at : Option Nat
  github_issue : Option String
  github_issue_url : Option String
  github_issue_number : Option Int
  status : String
  assigned_to : Option String
  report_url : Option String
  ignore_blacklist : Bool
  requirement : Option String
deriving DecidableEq

/-- A row of the `results` table (experiment name, crate, toolchain side);
only its presence is counted by this module. -/
structure ResultRow where
  experiment : String
  crate : String
  toolchain : String
deriving DecidableEq

/-- A row of the `experiment_crates` table.  `Crate` payloads are opaque
serialized identifiers (spec §6) modelled as their stored string. -/
structure ExperimentCrateRow where
  experiment : String
  crate : String
  skipped : Bool
deriving DecidableEq

/-- Modelled from the spec: the persistent store (§6) — relational tables
`experiments`, `agent_capabilities` (agent name → capability tag),
`results` and `experiment_crates`, with rows kept in insertion order;
`get_row` returns the first row produced by a query and `execute` applies an
update to every matching row. -/
structure Database where
  experiments : List ExperimentDBRecord
  agent_capabilities : List (String × String)
  results : List ResultRow
  experiment_crates : List ExperimentCrateRow
deriving DecidableEq

/-- Modelled from the spec: `Toolchain` parsing is owned by a collaborator
and treated as an opaque, total identity on the stored text (spec §6). -/
def parseToolchain (s : String) : Except ConvError String := .ok s

/-- `ExperimentDBRecord::into_experiment` from the source: parse each
string-backed field, failing the whole conversion on any one field's error;
the three GitHub-issue columns collapse to `none` unless all are present. -/
def intoExperiment (r : ExperimentDBRecord) : Except ConvError Experiment := do
  let t1 ← parseToolchain r.toolchain_start
  let t2 ← parseToolchain r.toolchain_end
  let cap ← CapLints.fromStr r.cap_lints
  let mode ← Mode.fromStr r.mode
  let assigned ← match r.assigned_to with
    | some s =>
      match Assignee.fromStr s with
      | .ok a => .ok (some a)
      | .error e => .error (ConvError.assignee e)
    | none => .ok none
  let st ← Status.fromStr r.status
  .ok { name := r.name
        toolchains := (t1, t2)
        mode := mode
        cap_lints := cap
        priority := r.priority
        created_at := r.created_at
        started_at := r.started_at
        completed_at := r.completed_at
        github_issue :=
          match r.github_issue, r.github_issue_url, r.github_issue_number with
          | some api, some html, some num => some ⟨api, html, num⟩
          | _, _, _ => none
        status := st
        assigned_to := assigned
        report_url := r.report_url
        ignore_blacklist := r.ignore_blacklist
        requirement := r.requirement }

/-- `true` iff the conversion succeeded. -/
def exceptOk {ε α : Type} : Except ε α → Bool
  | .ok _ => true
  | .error _ => false

instance {ε α : Type} [DecidableEq ε] [DecidableEq α] :
    DecidableEq (Except ε α) := fun x y =>
  match x, y with
  | .ok a, .ok b =>
    if h : a = b then .isTrue (by rw [h])
    else .isFalse (by intro hh; injection hh; exact h (by assumption))
  | .error a, .error b =>
    if h : a = b then .isTrue (by rw [h])
    else .isFalse (by intro hh; injection hh; exact h (by assumption))
  | .ok _, .error _ => .isFalse (fun hh => Except.noConfusion hh)
  | .error _, .ok _ => .isFalse (fun hh => Except.noConfusion hh)

/-- The `WHERE` clause of `Experiment::run_by`: status `running` and
`assigned_to` equal to the canonical text of the assignee. -/
def runByFilter (assignee : Assignee) (r : ExperimentDBRecord) : Bool :=
  decide (r.status = Status.toStr .Running ∧
    r.assigned_to = some (assigneeToString assignee))

/-- `Experiment::run_by` from the source: the first stored row with status
`running` assigned to the canonical text of `assignee`, converted to a
domain object. -/
def runBy (db : Database) (assignee : Assignee) :
    Except ConvError (Option Experiment) :=
  match db.experiments.find? (runByFilter assignee) with
  | none => .ok none
  | some r => (intoExperiment r).map some

/-- The capability subquery of the agent candidate query: the requirement is
absent, or appears among the capabilities registered for `agentName`. -/
def capabilityOk (db : Database) (agentName : String) (req : Option String) :
    Bool :=
  match req with
  | none => true
  | some tag =>
    db.agent_capabilities.any (fun p => decide (p.1 = agentName ∧ p.2 = tag))

/-- The `WHERE` clause of the candidate query in `Experiment::next`: status
`queued`, unassigned or assigned to this exact assignee, and — for a named
agent only — requirement satisfied; the CLI query carries no capability
clause. -/
def candFilter (db : Database) (assignee : Assignee)
    (r : ExperimentDBRecord) : Bool :=
  decide (r.status = "queued") &&
  (decide (r.assigned_to = none) ||
    decide (r.assigned_to = some (assigneeToString assignee))) &&
  (match assignee with
   | .Agent name => capabilityOk db name r.requirement
   | .CLI => true)

/-- The `ORDER BY` key of the candidate query: `assigned_to IS NULL`
ascending (pre-assigned rows first), then priority descending, then
`created_at` ascending. -/
def sortKey (r : ExperimentDBRecord) : Nat × Int × Nat :=
  ((if r.assigned_to = none then 1 else 0), -r.priority, r.created_at)

/-- Strict lexicographic comparison of sort keys. -/
def keyLt (a b : Nat × Int × Nat) : Prop :=
  a.1 < b.1 ∨ (a.1 = b.1 ∧
    (a.2.1 < b.2.1 ∨ (a.2.1 = b.2.1 ∧ a.2.2 < b.2.2)))

instance (a b : Nat × Int × Nat) : Decidable (keyLt a b) := by
  unfold keyLt
  exact inferInstance

/-- `betterRow r s` holds when row `r` sorts strictly before row `s` in the
candidate ordering of `Experiment::next`. -/
def betterRow (r s : ExperimentDBRecord) : Bool :=
  decide (keyLt (sortKey r) (sortKey s))

/-- `ORDER BY … LIMIT 1` over the rows passing the candidate filter: the
earliest row among those with the least sort key (the store returns rows in
insertion order; ties beyond the `ORDER BY` key keep that order). -/
def selectBest : List ExperimentDBRecord → Option ExperimentDBRecord
  | [] => none
  | r :: rest =>
    match selectBest rest with
    | none => some r
    | some s => if betterRow s r then some s else some r

/-- `Experiment::set_status` from the source: persist the new status on every
row of this experiment, then stamp `started_at = now` if the new status is
Running and no start date is recorded in memory, otherwise stamp
`completed_at = now` if the in-memory (pre-update) status was Running, no
completion date is recorded and the new status is not Failed; the in-memory
status is updated last. -/
def setStatus (db : Database) (e : Experiment) (status : Status) (now : Nat) :
    Database × Experiment :=
  let db1 : Database := { db with experiments := db.experiments.map (fun r =>
    if r.name = e.name then { r with status := Status.toStr status } else r) }
  if status = .Running ∧ e.started_at = none then
    ({ db1 with experiments := db1.experiments.map (fun r =>
        if r.name = e.name then { r with started_at := some now } else r) },
     { e with started_at := some now, status := status })
  else if e.status = .Running ∧ e.completed_at = none ∧ status ≠ .Failed then
    ({ db1 with experiments := db1.experiments.map (fun r =>
        if r.name = e.name then { r with completed_at := some now } else r) },
     { e with completed_at := some now, status := status })
  else
    (db1, { e with status := status })

/-- `Experiment::set_assigned_to` from the source. -/
def setAssignedTo (db : Database) (e : Experiment)
    (assigned : Option Assignee) : Database × Experiment :=
  ({ db with experiments := db.experiments.map (fun r =>
      if r.name = e.name then
        { r with assigned_to := assigned.map assigneeToString } else r) },
   { e with assigned_to := assigned })

/-- `Experiment::next` from the source: an idempotent re-poll via `run_by`,
else the best candidate row is converted, moved to Running and assigned.
`now` is the value of `Utc::now()` during the call. -/
def next (db : Database) (assignee : Assignee) (now : Nat) :
    Except ConvError (Option (Bool × Experiment)) × Database :=
  match runBy db assignee with
  | .error e => (.error e, db)
  | .ok (some exp) => (.ok (some (false, exp)), db)
  | .ok none =>
    match selectBest (db.experiments.filter (candFilter db assignee)) with
    | none => (.ok none, db)
    | some record =>
      match intoExperiment record with
      | .error e => (.error e, db)
      | .ok exp =>
        let p1 := setStatus db exp .Running now
        let p2 := setAssignedTo p1.1 p1.2 (some assignee)
        (.ok (some (true, p2.2)), p2.1)

/-- `Experiment::raw_progress` from the source: recorded result count for
the experiment, and twice its non-skipped crate count. -/
def rawProgress (db : Database) (name : String) : Nat × Nat :=
  (db.results.countP (fun r => decide (r.experiment = name)),
   2 * db.experiment_crates.countP (fun c =>
     decide (c.experiment = name ∧ c.skipped = false)))

/-- Floor of the base-2 logarithm by structural recursion on a fuel
argument (Lean's library versions are not kernel-reducible). -/
def log2fuel : Nat → Nat → Nat
  | 0, _ => 0
  | fuel + 1, n => if n ≤ 1 then 0 else log2fuel fuel (n / 2) + 1

/-- `⌊log₂ n⌋` for `n ≥ 1` (and `0` at `0`). -/
def floorLog2 (n : Nat) : Nat := log2fuel n n

/-- `num / den` rounded to the nearest integer, ties to even — the IEEE 754
default rounding mode used by every Rust `f32` operation. -/
def roundNE (num den : Nat) : Nat :=
  let q := num / den
  let r := num % den
  if 2 * r < den then q
  else if den < 2 * r then q + 1
  else if q % 2 = 0 then q else q + 1

/-- The IEEE binary32 value nearest to `n / d` (round to nearest, ties to
even), as a numerator/denominator pair whose denominator is a power of two:
the significand of `n / d` is rounded to 24 bits at the binade of
`⌊log₂ (n / d)⌋`.  Exponent overflow and subnormals are not modelled; they
are unreachable from the `u32`-sized counts this development feeds in
(quotients stay within roughly `2 ^ (-26)` to `2 ^ 39`). -/
def roundF32 (n d : Nat) : Nat × Nat :=
  if n = 0 ∨ d = 0 then (0, 1)
  else
    let k : Int :=
      if d ≤ n then (floorLog2 (n / d) : Int)
      else
        let j := floorLog2 (d / n)
        if n * 2 ^ j = d then -(j : Int) else -(j : Int) - 1
    if 23 ≤ k then
      let s := (k - 23).toNat
      (roundNE n (d * 2 ^ s) * 2 ^ s, 1)
    else
      let s := (23 - k).toNat
      (roundNE (n * 2 ^ s) d, 2 ^ s)

/-- `c as f32`: the nearest binary32 value to the integer `c`. -/
def f32OfNat (c : Nat) : Nat × Nat := roundF32 c 1

/-- Binary32 multiplication: the exact product, rounded back to binary32. -/
def f32Mul (x y : Nat × Nat) : Nat × Nat := roundF32 (x.1 * y.1) (x.2 * y.2)

/-- Binary32 division: the exact quotient, rounded back to binary32. -/
def f32Div (x y : Nat × Nat) : Nat × Nat := roundF32 (x.1 * y.2) (x.2 * y.1)

/-- `(c as f32 * 100.0 / e as f32).ceil() as u8` from the source: `c` and
`e` converted to `f32`, the percentage computed by `f32` multiplication and
division, its ceiling taken (`.ceil()` is exact: the ceiling of every
reachable `f32` is itself representable), and the value clamped to `255` by
Rust's saturating float-to-integer `as` cast. -/
def f32CeilPercent (c e : Nat) : Nat :=
  let q := f32Div (f32Mul (f32OfNat c) (100, 1)) (f32OfNat e)
  min ((q.1 + q.2 - 1) / q.2) 255

/-- `Experiment::progress` from the source: when the expected count is
nonzero, the percentage `(c as f32 * 100.0 / e as f32).ceil() as u8`
(modelled exactly by `f32CeilPercent`), and `0` otherwise. -/
def progress (db : Database) (name : String) : Nat :=
  let p := rawProgress db name
  if p.2 ≠ 0 then f32CeilPercent p.1 p.2 else 0

/-- `Experiment::get_uncompleted_crates` from the source: the crates of the
experiment with fewer than two recorded results. -/
def getUncompletedCrates (db : Database) (name : String) : List String :=
  (db.experiment_crates.filter (fun c =>
      decide (c.experiment = name) &&
      decide (db.results.countP (fun r =>
        decide (r.experiment = name ∧ r.crate = c.crate)) < 2))).map
    (fun c => c.crate)

/-- One scheduler poll viewed as a transition of the store state. -/
def stepDB (db : Database) (x : Assignee × Nat) : Database :=
  (next db x.1 x.2).2

/-- The store state after a sequence of scheduler polls. -/
def foldDB (db : Database) (xs : List (Assignee × Nat)) : Database :=
  xs.foldl stepDB db

/-- One `set_status` call viewed as a transition of the pair
(store, in-memory experiment). -/
def stepStatus (p : Database × Experiment) (c : Status × Nat) :
    Database × Experiment :=
  setStatus p.1 p.2 c.1 c.2

/-- The state after a sequence of `set_status` calls. -/
def foldStatus (p : Database × Experiment) (cs : List (Status × Nat)) :
    Database × Experiment :=
  cs.foldl stepStatus p

/-- The time of the first call of a `set_status` sequence that sets Running
(the moment `started_at` is stamped, starting from an unstarted state). -/
def firstRunningStamp : List (Status × Nat) → Option Nat
  | [] => none
  | (s, t) :: rest =>
    if s = .Running then some t else firstRunningStamp rest

/-- The time of the first call of a `set_status` sequence made while the
status is Running with a new status other than Failed (the moment
`completed_at` is stamped, starting from an uncompleted state); the first
argument is the status before the sequence. -/
def firstCompletionStamp : Status → List (Status × Nat) → Option Nat
  | _, [] => none
  | st, (s, t) :: rest =>
    if st = .Running ∧ s ≠ .Failed then some t
    else firstCompletionStamp s rest

/-- Agent names that survive the canonical-text round trip: the name must
contain a non-whitespace character (the CLI actor always survives). -/
def wfAssignee : Assignee → Bool
  | .Agent n => !(trimEmpty n)
  | .CLI => true

/-- The row update performed by the claim step of `Experiment::next` on every
row of the chosen experiment: status `running`, `started_at` stamped when
`stamp` holds, and `assigned_to` set to the assignee's canonical text. -/
def claimUpdateRow (a : Assignee) (now : Nat) (stamp : Bool)
    (x : ExperimentDBRecord) : ExperimentDBRecord :=
  { x with status := Status.toStr .Running,
           started_at := if stamp then some now else x.started_at,
           assigned_to := some (assigneeToString a) }

/-! ### Concrete fixtures used by witnesses and counterexamples -/

/-- An empty store. -/
def wDb : Database := ⟨[], [], [], []⟩

/-- A freshly created (queued, unstarted) experiment. -/
def wExp : Experiment :=
  { name := "exp", toolchains := ("start-tc", "end-tc"),
    mode := .BuildAndTest, cap_lints := .Allow, priority := 0,
    created_at := 0, started_at := none, completed_at := none,
    github_issue := none, status := .Queued, assigned_to := none,
    report_url := none, ignore_blacklist := false, requirement := none }

/-- A store with 51 non-skipped crates and 101 recorded results for the
experiment `"exp"` (progress 101 of 102 units). -/
def wDb8 : Database :=
  ⟨[], [],
   List.replicate 101 ⟨"exp", "c", "start-tc"⟩,
   List.replicate 51 ⟨"exp", "c", false⟩⟩

/-- A store with 671091 non-skipped crates (1342182 expected units) and
1342182 recorded results for the experiment `"exp"` (fully complete). -/
def wDb8b : Database :=
  ⟨[], [],
   List.replicate 1342182 ⟨"exp", "c", "start-tc"⟩,
   List.replicate 671091 ⟨"exp", "c", false⟩⟩

/-- A store with two crates for experiment `"e"`: `"crate-a"` has two
recorded results, `"crate-b"` has one. -/
def wDb9 : Database :=
  ⟨[], [],
   [⟨"e", "crate-a", "start-tc"⟩, ⟨"e", "crate-a", "end-tc"⟩,
    ⟨"e", "crate-b", "start-tc"⟩],
   [⟨"e", "crate-a", false⟩, ⟨"e", "crate-b", false⟩]⟩

/-- A queued, unassigned, requirement-free stored row named `"other"`. -/
def wRowQ : ExperimentDBRecord :=
  { name := "other", mode := "build-and-test", cap_lints := "allow",
    toolchain_start := "t1", toolchain_end := "t2", priority := 0,
    created_at := 0, started_at := none, completed_at := none,
    github_issue := none, github_issue_url := none,
    github_issue_number := none, status := "queued", assigned_to := none,
    report_url := none, ignore_blacklist := false, requirement := none }

/-- A running row named `"expA"` assigned to the agent `"a"`. -/
def wRowR : ExperimentDBRecord :=
  { wRowQ with
    name := "expA"
    status := "running"
    started_at := some 1
    assigned_to := some "agent:a" }

/-- A store holding only the queued row `"other"`. -/
def wDb2 : Database := ⟨[wRowQ], [], [], []⟩

/-- A store holding the running row `"expA"` (assigned to agent `"a"`) and
the queued row `"other"`. -/
def wDb3 : Database := ⟨[wRowR, wRowQ], [], [], []⟩

/-- The domain object obtained when the agent `"b"` claims the queued row
`"other"` at time 5. -/
def wExpClaimed : Experiment :=
  { name := "other", toolchains := ("t1", "t2"), mode := .BuildAndTest,
    cap_lints := .Allow, priority := 0, created_at := 0,
    started_at := some 5, completed_at := none, github_issue := none,
    status := .Running, assigned_to := some (.Agent "b"),
    report_url := none, ignore_blacklist := false, requirement := none }

/-- A stored row whose GitHub-issue columns are only partially present. -/
def wRec : ExperimentDBRecord :=
  { name := "exp", mode := "build-and-test", cap_lints := "allow",
    toolchain_start := "t1", toolchain_end := "t2", priority := 0,
    created_at := 0, started_at := none, completed_at := none,
    github_issue := some "api-url", github_issue_url := none,
    github_issue_number := none, status := "queued", assigned_to := none,
    report_url := none, ignore_blacklist := false, requirement := none }

/-! ### Helper lemmas on splitting and trimming -/

theorem splitColon_append_colon (k r : List Char) (h : ':' ∉ k) :
    splitColon (k ++ ':' :: r) = (k, some r) := by
  induction k with
  | nil => simp [splitColon]
  | cons c cs ih =>
    have hc : c ≠ ':' := fun hh => h (by simp [hh])
    have hcs : ':' ∉ cs := fun hm => h (List.mem_cons_of_mem _ hm)
    simp [splitColon, hc, ih hcs]

theorem splitColon_no_colon (l : List Char) (h : ':' ∉ l) :
    splitColon l = (l, none) := by
  induction l with
  | nil => simp [splitColon]
  | cons c cs ih =>
    have hc : c ≠ ':' := fun hh => h (by simp [hh])
    have hcs : ':' ∉ cs := fun hm => h (List.mem_cons_of_mem _ hm)
    simp [splitColon, hc, ih hcs]

theorem splitColon_spec (l : List Char) :
    (∃ k r, splitColon l = (k, some r) ∧ l = k ++ ':' :: r ∧ ':' ∉ k) ∨
    (splitColon l = (l, none) ∧ ':' ∉ l) := by
  induction l with
  | nil => right; simp [splitColon]
  | cons c cs ih =>
    by_cases hc : c = ':'
    · left
      exact ⟨[], cs, by simp [splitColon, hc], by simp [hc], by simp⟩
    · rcases ih with ⟨k, r, hs, hl, hk⟩ | ⟨hs, hn⟩
      · left
        refine ⟨c :: k, r, by simp [splitColon, hc, hs], by simp [hl], ?_⟩
        intro hm
        rcases List.mem_cons.mp hm with hm | hm
        · exact hc hm.symm
        · exact hk hm
      · right
        refine ⟨by simp [splitColon, hc, hs], ?_⟩
        intro hm
        rcases List.mem_cons.mp hm with hm | hm
        · exact hc hm.symm
        · exact hn hm

theorem mk_eq_iff (k : List Char) (t : String) :
    (⟨k⟩ : String) = t ↔ k = t.data := by
  rw [String.ext_iff]

/-- The body of `Assignee::from_str` re-stated with the payload match on the
outside, which is easier to case on. -/
theorem fromStr_eq (l : List Char) :
    Assignee.fromStr ⟨l⟩ =
      if l.all isWS then .error .Empty
      else
        match splitColon l with
        | (k, none) =>
          if (⟨k⟩ : String) = "agent" then .error .Empty
          else if (⟨k⟩ : String) = "cli" then .ok .CLI
          else .error (.InvalidKind ⟨k⟩)
        | (k, some nm) =>
          if (⟨k⟩ : String) = "agent" then
            (if nm.all isWS then .error .Empty else .ok (.Agent ⟨nm⟩))
          else if (⟨k⟩ : String) = "cli" then .error .UnexpectedPayload
          else .error (.InvalidKind ⟨k⟩) := by
  rcases hsp : splitColon l with ⟨k, pd⟩
  cases pd with
  | none =>
    by_cases h1 : (⟨k⟩ : String) = "agent" <;>
      by_cases h2 : (⟨k⟩ : String) = "cli" <;>
        simp [Assignee.fromStr, trimEmpty, hsp, h1, h2]
  | some nm =>
    by_cases h1 : (⟨k⟩ : String) = "agent" <;>
      by_cases h2 : (⟨k⟩ : String) = "cli" <;>
        simp [Assignee.fromStr, trimEmpty, hsp, h1, h2]

theorem trimEmpty_agent_append (n : String) :
    trimEmpty ("agent:" ++ n) = false := by
  have h : ("agent:" ++ n).data = 'a' :: 'g' :: 'e' :: 'n' :: 't' :: ':' ::n.data := by
    rw [String.data_append]; rfl
  simp [trimEmpty, h, isWS]

theorem trimEmpty_cli_append (n : String) :
    trimEmpty ("cli:" ++ n) = false := by
  have h : ("cli:" ++ n).data = 'c' :: 'l' :: 'i' :: ':' ::n.data := by
    rw [String.data_append]; rfl
  simp [trimEmpty, h, isWS]

theorem fromStr_eq_agent_iff (s name : String) :
    Assignee.fromStr s = .ok (.Agent name) ↔
      (s = "agent:" ++ name ∧ trimEmpty name = false) := by
  obtain ⟨l⟩ := s
  obtain ⟨nl⟩ := name
  rw [fromStr_eq]
  constructor
  · intro h
    by_cases ht : l.all isWS
    · simp [ht] at h
    · rw [if_neg (by simp [ht])] at h
      rcases splitColon_spec l with ⟨k, r, hsp, hl, hk⟩ | ⟨hsp, hk⟩
      · rw [hsp] at h
        dsimp only at h
        by_cases hag : (⟨k⟩ : String) = "agent"
        · rw [if_pos hag] at h
          by_cases hnm : r.all isWS
          · simp [hnm] at h
          · rw [if_neg (by simp [hnm])] at h
            have hr : r = nl := by
              have h2 := Except.ok.inj h
              have h3 : (⟨r⟩ : String) = ⟨nl⟩ := by simpa using h2
              exact congrArg String.data h3
            have hkd : k = ("agent" : String).data := (mk_eq_iff k "agent").mp hag
            subst hr
            constructor
            · rw [mk_eq_iff]
              rw [hl, hkd, String.data_append]
              rfl
            · simpa [trimEmpty] using hnm
        · rw [if_neg hag] at h
          by_cases hcli : (⟨k⟩ : String) = "cli" <;> simp [hcli] at h
      · rw [hsp] at h
        dsimp only at h
        by_cases hag : (⟨l⟩ : String) = "agent"
        · simp [hag] at h
        · rw [if_neg hag] at h
          by_cases hcli : (⟨l⟩ : String) = "cli" <;> simp [hcli] at h
  · rintro ⟨hs, hnm⟩
    have hl : l = 'a' :: 'g' :: 'e' :: 'n' :: 't' :: ':' ::nl := by
      have := (mk_eq_iff l ("agent:" ++ ⟨nl⟩)).mp hs
      rw [String.data_append] at this
      exact this
    subst hl
    have ht : ('a' :: 'g' :: 'e' :: 'n' :: 't' :: ':' ::nl).all isWS = false := by
      simp [isWS]
    rw [if_neg (by simp [ht])]
    have hsp : splitColon ('a' :: 'g' :: 'e' :: 'n' :: 't' :: ':' ::nl) =
        (['a','g','e','n','t'], some nl) :=
      splitColon_append_colon ['a','g','e','n','t'] nl (by decide)
    rw [hsp]
    dsimp only
    rw [if_pos (by decide)]
    rw [if_neg (by simp [show nl.all isWS = false from by simpa [trimEmpty] using hnm])]

theorem fromStr_eq_cli_iff (s : String) :
    Assignee.fromStr s = .ok .CLI ↔ s = "cli" := by
  obtain ⟨l⟩ := s
  rw [fromStr_eq]
  constructor
  · intro h
    by_cases ht : l.all isWS
    · simp [ht] at h
    · rw [if_neg (by simp [ht])] at h
      rcases splitColon_spec l with ⟨k, r, hsp, hl, hk⟩ | ⟨hsp, hk⟩
      · rw [hsp] at h
        dsimp only at h
        by_cases hag : (⟨k⟩ : String) = "agent"
        · rw [if_pos hag] at h
          by_cases hnm : r.all isWS
          · simp [hnm] at h
          · rw [if_neg (by simp [hnm])] at h
            exact absurd h (by simp)
        · rw [if_neg hag] at h
          by_cases hcli : (⟨k⟩ : String) = "cli" <;> simp [hcli] at h
      · rw [hsp] at h
        dsimp only at h
        by_cases hag : (⟨l⟩ : String) = "agent"
        · simp [hag] at h
        · rw [if_neg hag] at h
          by_cases hcli : (⟨l⟩ : String) = "cli"
          · exact hcli
          · simp [hcli] at h
  · intro hs
    have hl : l = ['c','l','i'] := (mk_eq_iff l "cli").mp hs
    subst hl
    rfl

theorem fromStr_eq_payload_iff (s : String) :
    Assignee.fromStr s = .error .UnexpectedPayload ↔
      ∃ payload, s = "cli:" ++ payload := by
  obtain ⟨l⟩ := s
  rw [fromStr_eq]
  constructor
  · intro h
    by_cases ht : l.all isWS
    · simp [ht] at h
    · rw [if_neg (by simp [ht])] at h
      rcases splitColon_spec l with ⟨k, r, hsp, hl, hk⟩ | ⟨hsp, hk⟩
      · rw [hsp] at h
        dsimp only at h
        by_cases hag : (⟨k⟩ : String) = "agent"
        · rw [if_pos hag] at h
          by_cases hnm : r.all isWS
          · simp [hnm] at h
          · rw [if_neg (by simp [hnm])] at h
            exact absurd h (by simp)
        · rw [if_neg hag] at h
          by_cases hcli : (⟨k⟩ : String) = "cli"
          · refine ⟨⟨r⟩, ?_⟩
            rw [mk_eq_iff]
            rw [hl, (mk_eq_iff k "cli").mp hcli, String.data_append]
            rfl
          · simp [hcli] at h
      · rw [hsp] at h
        dsimp only at h
        by_cases hag : (⟨l⟩ : String) = "agent"
        · simp [hag] at h
        · rw [if_neg hag] at h
          by_cases hcli : (⟨l⟩ : String) = "cli" <;> simp [hcli] at h
  · rintro ⟨payload, hs⟩
    obtain ⟨pl⟩ := payload
    have hl : l = 'c' :: 'l' :: 'i' :: ':' ::pl := by
      have := (mk_eq_iff l ("cli:" ++ ⟨pl⟩)).mp hs
      rw [String.data_append] at this
      exact this
    subst hl
    have ht : ('c' :: 'l' :: 'i' :: ':' ::pl).all isWS = false := by simp [isWS]
    rw [if_neg (by simp [ht])]
    have hsp : splitColon ('c' :: 'l' :: 'i' :: ':' ::pl) = (['c','l','i'], some pl) :=
      splitColon_append_colon ['c','l','i'] pl (by decide)
    rw [hsp]
    dsimp only
    rw [if_neg (by decide), if_pos (by decide)]

theorem fromStr_eq_empty_iff (s : String) :
    Assignee.fromStr s = .error .Empty ↔
      (trimEmpty s = true ∨ s = "agent" ∨
        ∃ name, s = "agent:" ++ name ∧ trimEmpty name = true) := by
  obtain ⟨l⟩ := s
  rw [fromStr_eq]
  constructor
  · intro h
    by_cases ht : l.all isWS
    · left; simpa [trimEmpty] using ht
    · rw [if_neg (by simp [ht])] at h
      rcases splitColon_spec l with ⟨k, r, hsp, hl, hk⟩ | ⟨hsp, hk⟩
      · rw [hsp] at h
        dsimp only at h
        by_cases hag : (⟨k⟩ : String) = "agent"
        · rw [if_pos hag] at h
          by_cases hnm : r.all isWS
          · right; right
            refine ⟨⟨r⟩, ?_, by simpa [trimEmpty] using hnm⟩
            rw [mk_eq_iff, hl, (mk_eq_iff k "agent").mp hag, String.data_append]
            rfl
          · rw [if_neg (by simp [hnm])] at h
            exact absurd h (by simp)
        · rw [if_neg hag] at h
          by_cases hcli : (⟨k⟩ : String) = "cli" <;> simp [hcli] at h
      · rw [hsp] at h
        dsimp only at h
        by_cases hag : (⟨l⟩ : String) = "agent"
        · right; left; exact hag
        · rw [if_neg hag] at h
          by_cases hcli : (⟨l⟩ : String) = "cli" <;> simp [hcli] at h
  · intro h
    rcases h with ht | hag | ⟨name, hs, hnm⟩
    · rw [if_pos (by simpa [trimEmpty] using ht)]
    · have hl : l = ['a','g','e','n','t'] := (mk_eq_iff l "agent").mp hag
      subst hl
      rfl
    · obtain ⟨nl⟩ := name
      have hl : l = 'a' :: 'g' :: 'e' :: 'n' :: 't' :: ':' ::nl := by
        have := (mk_eq_iff l ("agent:" ++ ⟨nl⟩)).mp hs
        rw [String.data_append] at this
        exact this
      subst hl
      rw [if_neg (by simp [isWS])]
      have hsp : splitColon ('a' :: 'g' :: 'e' :: 'n' :: 't' :: ':' ::nl) =
          (['a','g','e','n','t'], some nl) :=
        splitColon_append_colon ['a','g','e','n','t'] nl (by decide)
      rw [hsp]
      dsimp only
      rw [if_pos (by decide), if_pos (by simpa [trimEmpty] using hnm)]

theorem fromStr_eq_invalid_iff (s k : String) :
    Assignee.fromStr s = .error (.InvalidKind k) ↔
      (trimEmpty s = false ∧ k ≠ "agent" ∧ k ≠ "cli" ∧ ':' ∉ k.data ∧
        (s = k ∨ ∃ rest, s = k ++ ":" ++ rest)) := by
  obtain ⟨l⟩ := s
  rw [fromStr_eq]
  constructor
  · intro h
    by_cases ht : l.all isWS
    · simp [ht] at h
    · refine ⟨by simpa [trimEmpty] using ht, ?_⟩
      rw [if_neg (by simp [ht])] at h
      rcases splitColon_spec l with ⟨kd, r, hsp, hl, hk⟩ | ⟨hsp, hk⟩
      · rw [hsp] at h
        dsimp only at h
        by_cases hag : (⟨kd⟩ : String) = "agent"
        · rw [if_pos hag] at h
          by_cases hnm : r.all isWS <;> simp [hnm] at h
        · rw [if_neg hag] at h
          by_cases hcli : (⟨kd⟩ : String) = "cli"
          · simp [hcli] at h
          · rw [if_neg hcli] at h
            have hkk : (⟨kd⟩ : String) = k :=
              AssigneeParseError.InvalidKind.inj (Except.error.inj h)
            refine ⟨hkk ▸ hag, hkk ▸ hcli, ?_, ?_⟩
            · have : k.data = kd := congrArg String.data hkk.symm
              rw [this]
              exact hk
            · right
              refine ⟨⟨r⟩, ?_⟩
              rw [mk_eq_iff, String.data_append, String.data_append, hl,
                ← hkk]
              simp
      · rw [hsp] at h
        dsimp only at h
        by_cases hag : (⟨l⟩ : String) = "agent"
        · simp [hag] at h
        · rw [if_neg hag] at h
          by_cases hcli : (⟨l⟩ : String) = "cli"
          · simp [hcli] at h
          · rw [if_neg hcli] at h
            have hkk : (⟨l⟩ : String) = k :=
              AssigneeParseError.InvalidKind.inj (Except.error.inj h)
            refine ⟨hkk ▸ hag, hkk ▸ hcli, ?_, Or.inl hkk⟩
            have : k.data = l := congrArg String.data hkk.symm
            rw [this]
            exact hk
  · rintro ⟨ht, hag, hcli, hcolon, hs | ⟨rest, hs⟩⟩
    · have hl : l = k.data := (mk_eq_iff l k).mp hs
      subst hl
      replace ht : (k.data).all isWS = false := by simpa [trimEmpty] using ht
      rw [if_neg (by simp [ht])]
      rw [splitColon_no_colon k.data hcolon]
      dsimp only
      rw [if_neg (fun hh => hag hh), if_neg (fun hh => hcli hh)]
    · obtain ⟨rl⟩ := rest
      have hl : l = k.data ++ ':' :: rl := by
        have := (mk_eq_iff l (k ++ ":" ++ ⟨rl⟩)).mp hs
        rw [String.data_append, String.data_append] at this
        simpa using this
      subst hl
      replace ht : (k.data ++ ':' :: rl).all isWS = false := by
        simpa [trimEmpty] using ht
      rw [if_neg (by simp [ht])]
      rw [splitColon_append_colon k.data rl hcolon]
      dsimp only
      rw [if_neg (fun hh => hag hh), if_neg (fun hh => hcli hh)]

/-- The canonical text of a well-formed assignee parses back to it. -/
theorem assignee_round_trip (a : Assignee) (h : wfAssignee a = true) :
    Assignee.fromStr (assigneeToString a) = .ok a := by
  cases a with
  | CLI => rfl
  | Agent n =>
    rw [show assigneeToString (.Agent n) = "agent:" ++ n from rfl,
      fromStr_eq_agent_iff]
    refine ⟨rfl, ?_⟩
    simpa [wfAssignee] using h

/-- Canonical assignee texts are pairwise distinct. -/
theorem assigneeToString_inj (a b : Assignee)
    (h : assigneeToString a = assigneeToString b) : a = b := by
  cases a with
  | CLI =>
    cases b with
    | CLI => rfl
    | Agent m =>
      have := congrArg String.length h
      rw [show assigneeToString (.Agent m) = "agent:" ++ m from rfl,
        show assigneeToString Assignee.CLI = "cli" from rfl,
        String.length_append] at this
      have h3 : ("cli" : String).length = 3 := rfl
      have h6 : ("agent:" : String).length = 6 := rfl
      omega
  | Agent n =>
    cases b with
    | CLI =>
      have := congrArg String.length h
      rw [show assigneeToString (.Agent n) = "agent:" ++ n from rfl,
        show assigneeToString Assignee.CLI = "cli" from rfl,
        String.length_append] at this
      have h3 : ("cli" : String).length = 3 := rfl
      have h6 : ("agent:" : String).length = 6 := rfl
      omega
    | Agent m =>
      have h2 : ("agent:" : String).data ++ n.data =
          ("agent:" : String).data ++ m.data := by
        have := congrArg String.data h
        rw [show assigneeToString (.Agent n) = "agent:" ++ n from rfl,
          show assigneeToString (.Agent m) = "agent:" ++ m from rfl,
          String.data_append, String.data_append] at this
        exact this
      have h3 : n.data = m.data := List.append_cancel_left h2
      have h4 : n = m := by
        rw [String.ext_iff]
        exact h3
      rw [h4]

/-! ### C6 — assignee parsing decision table -/

/-- C6 (counterexample): the bare input `"agent"` parses to the `Empty`
error, although it is neither empty nor whitespace-only nor of the form
`"agent:<name>"`; the claim's decision table assigns it no row (and its
catch-all row would assign `InvalidKind`), so the table as stated is wrong
on this input. -/
theorem c6_counterexample :
    Assignee.fromStr "agent" = .error .Empty ∧
    trimEmpty "agent" = false ∧
    ¬ ∃ name : String, ("agent" : String) = "agent:" ++ name := by
  refine ⟨rfl, rfl, ?_⟩
  rintro ⟨name, h⟩
  have hlen := congrArg String.length h
  rw [String.length_append] at hlen
  have h5 : ("agent" : String).length = 5 := rfl
  have h6 : ("agent:" : String).length = 6 := rfl
  omega

/-- C6 (amended): the assignee parsing decision table, with the `Empty` row
also covering the bare input `"agent"` (missing payload).  For every input
string: `Empty` exactly for empty/whitespace-only inputs, `"agent"`, and
`"agent:<name>"` with a whitespace-only name; `Agent(name)` exactly for
`"agent:<name>"` with a non-whitespace name; `CLI` exactly for `"cli"`;
`UnexpectedPayload` exactly for `"cli:<anything>"`; `InvalidKind(other)`
exactly for any other `"<other>"` or `"<other>:..."` prefix. -/
theorem c6_assignee_parse_table (s : String) :
    (Assignee.fromStr s = .error .Empty ↔
      (trimEmpty s = true ∨ s = "agent" ∨
        ∃ name, s = "agent:" ++ name ∧ trimEmpty name = true)) ∧
    (∀ name, Assignee.fromStr s = .ok (.Agent name) ↔
      (s = "agent:" ++ name ∧ trimEmpty name = false)) ∧
    (Assignee.fromStr s = .ok .CLI ↔ s = "cli") ∧
    (Assignee.fromStr s = .error .UnexpectedPayload ↔
      ∃ payload, s = "cli:" ++ payload) ∧
    (∀ k, Assignee.fromStr s = .error (.InvalidKind k) ↔
      (trimEmpty s = false ∧ k ≠ "agent" ∧ k ≠ "cli" ∧ ':' ∉ k.data ∧
        (s = k ∨ ∃ rest, s = k ++ ":" ++ rest))) :=
  ⟨fromStr_eq_empty_iff s, fun name => fromStr_eq_agent_iff s name,
   fromStr_eq_cli_iff s, fromStr_eq_payload_iff s,
   fun k => fromStr_eq_invalid_iff s k⟩

/-! ### C7 — round-trip laws -/

/-- C7 (counterexample): the assignee `Agent(" ")` has a non-empty name but
its canonical text `"agent: "` parses to the `Empty` error, not back to the
value, so the round-trip law fails for non-empty whitespace-only names. -/
theorem c7_counterexample :
    (" " : String) ≠ "" ∧
    Assignee.fromStr (assigneeToString (Assignee.Agent " ")) =
      .error .Empty := by
  exact ⟨by decide, rfl⟩

/-- C7 (amended): every variant of the four string-backed enumerations
round-trips through its canonical string, and every assignee whose agent
name contains a non-whitespace character (and the CLI actor) round-trips
through its canonical text. -/
theorem c7_round_trip :
    (∀ v : Status, Status.fromStr (Status.toStr v) = .ok v) ∧
    (∀ v : Mode, Mode.fromStr (Mode.toStr v) = .ok v) ∧
    (∀ v : CrateSelect, CrateSelect.fromStr (CrateSelect.toStr v) = .ok v) ∧
    (∀ v : CapLints, CapLints.fromStr (CapLints.toStr v) = .ok v) ∧
    (∀ a : Assignee, wfAssignee a = true →
      Assignee.fromStr (assigneeToString a) = .ok a) := by
  refine ⟨?_, ?_, ?_, ?_, fun a h => assignee_round_trip a h⟩ <;>
    (intro v; cases v <;> rfl)

/-- C7 (witness): the round-trip law applied to the agent `"foo"`. -/
theorem c7_round_trip_witness :
    wfAssignee (Assignee.Agent "foo") = true ∧
    Assignee.fromStr (assigneeToString (Assignee.Agent "foo")) =
      .ok (Assignee.Agent "foo") :=
  ⟨by decide, c7_round_trip.2.2.2.2 (Assignee.Agent "foo") (by decide)⟩

/-! ### C4 — the per-call contract of `set_status` -/

/-- C4: `set_status` persists the new status on the experiment's rows; it
stamps `started_at = now` (in store and memory) when the new status is
Running and `started_at` is unset; otherwise it stamps `completed_at = now`
when the pre-call status was Running, `completed_at` is unset and the new
status is not Failed; and the in-memory status is updated last, so the
previous-status test uses the pre-update value. -/
theorem c4_set_status_contract (db : Database) (e : Experiment)
    (st : Status) (now : Nat) :
    setStatus db e st now =
      ({ db with experiments := db.experiments.map (fun r =>
          if r.name = e.name then
            { r with
              status := Status.toStr st,
              started_at :=
                if st = .Running ∧ e.started_at = none then some now
                else r.started_at,
              completed_at :=
                if ¬(st = .Running ∧ e.started_at = none) ∧
                    e.status = .Running ∧ e.completed_at = none ∧
                    st ≠ .Failed then some now
                else r.completed_at }
          else r) },
       { e with
         status := st,
         started_at :=
           if st = .Running ∧ e.started_at = none then some now
           else e.started_at,
         completed_at :=
           if ¬(st = .Running ∧ e.started_at = none) ∧
               e.status = .Running ∧ e.completed_at = none ∧
               st ≠ .Failed then some now
           else e.completed_at }) := by
  by_cases h1 : st = .Running ∧ e.started_at = none
  · rw [setStatus, if_pos h1]
    simp only [Prod.mk.injEq]
    constructor
    · simp only [List.map_map]
      refine congrArg (fun l => { db with experiments := l }) ?_
      refine congrArg (fun f => List.map f db.experiments) ?_
      funext r
      by_cases hr : r.name = e.name <;>
        simp [Function.comp, hr, h1]
    · simp [h1]
  · by_cases h2 : e.status = .Running ∧ e.completed_at = none ∧ st ≠ .Failed
    · rw [setStatus, if_neg h1, if_pos h2]
      simp only [Prod.mk.injEq]
      constructor
      · simp only [List.map_map]
        refine congrArg (fun l => { db with experiments := l }) ?_
        refine congrArg (fun f => List.map f db.experiments) ?_
        funext r
        by_cases hr : r.name = e.name <;>
          simp [Function.comp, hr, h1, h2]
      · simp [h1, h2]
    · rw [setStatus, if_neg h1, if_neg h2]
      simp only [Prod.mk.injEq]
      constructor
      · refine congrArg (fun l => { db with experiments := l }) ?_
        refine congrArg (fun f => List.map f db.experiments) ?_
        funext r
        by_cases hr : r.name = e.name <;>
          simp [hr, h1, h2]
      · simp [h1, h2]

/-! ### C5 — the timestamp law over call sequences -/

/-- The in-memory effect of a single `set_status` call. -/
theorem setStatus_snd (db : Database) (e : Experiment) (st : Status)
    (now : Nat) :
    (setStatus db e st now).2 =
      { e with
        status := st,
        started_at :=
          if st = .Running ∧ e.started_at = none then some now
          else e.started_at,
        completed_at :=
          if ¬(st = .Running ∧ e.started_at = none) ∧
              e.status = .Running ∧ e.completed_at = none ∧
              st ≠ .Failed then some now
          else e.completed_at } := by
  by_cases h1 : st = .Running ∧ e.started_at = none
  · rw [setStatus, if_pos h1]
    simp [h1]
  · by_cases h2 : e.status = .Running ∧ e.completed_at = none ∧ st ≠ .Failed
    · rw [setStatus, if_neg h1, if_pos h2]
      simp [h1, h2]
    · rw [setStatus, if_neg h1, if_neg h2]
      simp [h1, h2]

/-- Timestamps after a sequence of `set_status` calls, from any state in
which a Running status implies a recorded start date. -/
theorem foldStatus_timestamps (cs : List (Status × Nat)) :
    ∀ (db : Database) (e : Experiment),
      (e.status = .Running → e.started_at ≠ none) →
      ((foldStatus (db, e) cs).2.started_at =
        (match e.started_at with
         | some v => some v
         | none => firstRunningStamp cs)) ∧
      ((foldStatus (db, e) cs).2.completed_at =
        (match e.completed_at with
         | some v => some v
         | none => firstCompletionStamp e.status cs)) := by
  induction cs with
  | nil =>
    intro db e hinv
    cases hs : e.started_at <;> cases hc : e.completed_at <;>
      simp [foldStatus, firstRunningStamp, firstCompletionStamp, hs, hc]
  | cons c rest ih =>
    rintro db e hinv
    obtain ⟨s, t⟩ := c
    have hstep : foldStatus (db, e) ((s, t) :: rest) =
        foldStatus ((setStatus db e s t).1, (setStatus db e s t).2) rest := rfl
    rw [hstep]
    have hsnd := setStatus_snd db e s t
    have hinv' : (setStatus db e s t).2.status = .Running →
        (setStatus db e s t).2.started_at ≠ none := by
      rw [hsnd]
      intro hrun
      have hsR : s = .Running := by simpa using hrun
      by_cases h0 : e.started_at = none
      · simp [hsR, h0]
      · simp [h0]
    have IH := ih (setStatus db e s t).1 (setStatus db e s t).2 hinv'
    rw [hsnd] at IH ⊢
    obtain ⟨IH1, IH2⟩ := IH
    constructor
    · rw [IH1]
      cases hsv : e.started_at with
      | some v => simp [hsv]
      | none =>
        by_cases hsR : s = .Running <;>
          simp [hsv, hsR, firstRunningStamp]
    · rw [IH2]
      cases hcv : e.completed_at with
      | some w => simp [hcv]
      | none =>
        by_cases hQ : e.status = .Running
        · have hs0 : e.started_at ≠ none := hinv hQ
          obtain ⟨v, hv⟩ := Option.ne_none_iff_exists'.mp hs0
          by_cases hsF : s = .Failed
          · simp [hv, hcv, hQ, hsF, firstCompletionStamp]
          · simp [hv, hcv, hQ, hsF, firstCompletionStamp]
        · cases hsv : e.started_at with
          | some v => simp [hsv, hcv, hQ, firstCompletionStamp]
          | none =>
            by_cases hsR : s = .Running <;>
              simp [hsv, hcv, hQ, hsR, firstCompletionStamp]

/-- C5 (counterexample): starting from a fresh queued experiment, calling
`set_status(Running)` twice stamps `completed_at` on the second call even
though the status never moved away from Running, contradicting the claim
that `completed_at` is set only on a transition away from Running. -/
theorem c5_counterexample :
    (setStatus wDb wExp .Running 1).2.status = .Running ∧
    (setStatus (setStatus wDb wExp .Running 1).1
      (setStatus wDb wExp .Running 1).2 .Running 2).2.status = .Running ∧
    (setStatus wDb wExp .Running 1).2.completed_at = none ∧
    (setStatus (setStatus wDb wExp .Running 1).1
      (setStatus wDb wExp .Running 1).2 .Running 2).2.completed_at =
      some 2 :=
  ⟨rfl, rfl, rfl, rfl⟩

/-- C5 (amended): over any `set_status` sequence from an unstarted,
uncompleted, non-Running state, `started_at` is stamped at exactly the first
call that sets Running and never overwritten; `completed_at` is stamped at
exactly the first call made while the status is Running with a new status
other than Failed (a repeated `Running` set while started counts as such a
call) and never overwritten; and a call setting Failed from Running stamps
neither timestamp. -/
theorem c5_timestamp_law (db : Database) (e : Experiment)
    (cs : List (Status × Nat))
    (hs : e.started_at = none) (hc : e.completed_at = none)
    (hq : e.status ≠ .Running) :
    (foldStatus (db, e) cs).2.started_at = firstRunningStamp cs ∧
    (foldStatus (db, e) cs).2.completed_at =
      firstCompletionStamp e.status cs ∧
    (∀ (e2 : Experiment) (t : Nat), e2.status = .Running →
      (setStatus db e2 .Failed t).2.started_at = e2.started_at ∧
      (setStatus db e2 .Failed t).2.completed_at = e2.completed_at) := by
  have h := foldStatus_timestamps cs db e (fun hr => absurd hr hq)
  refine ⟨by rw [h.1]; simp [hs], by rw [h.2]; simp [hc], ?_⟩
  intro e2 t hrun
  rw [setStatus_snd]
  constructor <;> simp

/-- C5 (witness): the amended law applied to the call sequence
`[(Running, 1), (NeedsReport, 2)]` from a fresh queued experiment. -/
theorem c5_timestamp_law_witness :
    (foldStatus (wDb, wExp)
      [(.Running, 1), (.NeedsReport, 2)]).2.started_at = some 1 ∧
    (foldStatus (wDb, wExp)
      [(.Running, 1), (.NeedsReport, 2)]).2.completed_at = some 2 := by
  have h := c5_timestamp_law wDb wExp [(.Running, 1), (.NeedsReport, 2)]
    rfl rfl (by decide)
  exact ⟨h.1.trans (by rfl), h.2.1.trans (by rfl)⟩

/-! ### C8 — progress accounting -/

/-- Arithmetic of the ceiling percentage `⌈c * 100 / e⌉`. -/
theorem ceil_percent_props (c e : Nat) (h : c ≤ e) (he : e ≠ 0) :
    (c * 100 + e - 1) / e ≤ 100 ∧
    ((c * 100 + e - 1) / e = 0 ↔ c = 0) ∧
    ((c * 100 + e - 1) / e = 100 ↔ 99 * e < 100 * c) := by
  have hpos : 0 < e := Nat.pos_of_ne_zero he
  refine ⟨?_, ?_, ?_⟩
  · have hlt : (c * 100 + e - 1) / e < 101 := by
      rw [Nat.div_lt_iff_lt_mul hpos]
      omega
    omega
  · rw [Nat.div_eq_zero_iff hpos]
    omega
  · constructor
    · intro h100
      have hle : 100 * e ≤ c * 100 + e - 1 :=
        (Nat.le_div_iff_mul_le hpos).mp (le_of_eq h100.symm)
      omega
    · intro hlt
      have h1 : 100 ≤ (c * 100 + e - 1) / e := by
        rw [Nat.le_div_iff_mul_le hpos]
        omega
      have h2 : (c * 100 + e - 1) / e < 101 := by
        rw [Nat.div_lt_iff_lt_mul hpos]
        omega
      omega

/-- Rounding the rational `0 / d` to binary32 gives zero. -/
theorem roundF32_zero (d : Nat) : roundF32 0 d = (0, 1) := by
  unfold roundF32
  simp

/-- The `f32` percentage of zero completed units is zero. -/
theorem f32CeilPercent_zero (e : Nat) : f32CeilPercent 0 e = 0 := by
  unfold f32CeilPercent f32Div
  rw [show f32Mul (f32OfNat 0) (100, 1) = (0, 1) from rfl]
  simp [roundF32_zero]

set_option maxRecDepth 100000 in
set_option maxHeartbeats 0 in
/-- On small inputs the `f32` arithmetic of the percentage is exact: for
every `c ≤ e ≤ 102` it returns the exact ceiling of `c * 100 / e`. -/
theorem f32CeilPercent_exact :
    ∀ e ≤ 102, ∀ c ≤ e, f32CeilPercent c e = (c * 100 + e - 1) / e := by
  decide

/-- `countP` over a replicated list. -/
theorem countP_replicate {A : Type} (p : A → Bool) (n : Nat) (a : A) :
    (List.replicate n a).countP p = if p a then n else 0 := by
  induction n with
  | zero => simp
  | succ n ih =>
    rw [List.replicate_succ, List.countP_cons, ih]
    by_cases h : p a <;> simp [h]

/-- The raw progress of the fully complete 1342182-unit store. -/
theorem rawProgress_wDb8b : rawProgress wDb8b "exp" = (1342182, 1342182) := by
  have h1 : wDb8b.results =
      List.replicate 1342182 ⟨"exp", "c", "start-tc"⟩ := rfl
  have h2 : wDb8b.experiment_crates =
      List.replicate 671091 ⟨"exp", "c", false⟩ := rfl
  unfold rawProgress
  rw [h1, h2, countP_replicate, countP_replicate]
  decide

/-- C8 (counterexample): with 51 non-skipped crates (102 expected units) and
101 recorded results, `progress` returns 100 although the completed count
differs from the expected count, refuting "100 exactly when
completed_units == expected_units"; and with 1342182 results for 671091
crates (1342182 expected units) the `f32` computation
`1342182 as f32 * 100.0 / 1342182 as f32` rounds above 100, so `progress`
returns 101, refuting the claimed 0–100 range. -/
theorem c8_counterexample :
    (rawProgress wDb8 "exp" = (101, 102) ∧
     progress wDb8 "exp" = 100 ∧ (101 : Nat) ≠ 102) ∧
    (rawProgress wDb8b "exp" = (1342182, 1342182) ∧
     progress wDb8b "exp" = 101 ∧ ¬ (101 : Nat) ≤ 100) :=
  ⟨⟨rfl, rfl, by decide⟩,
   ⟨rawProgress_wDb8b,
    by
      show (if (rawProgress wDb8b "exp").2 ≠ 0 then
          f32CeilPercent (rawProgress wDb8b "exp").1
            (rawProgress wDb8b "exp").2
        else 0) = 101
      rw [rawProgress_wDb8b]
      show f32CeilPercent 1342182 1342182 = 101
      decide,
    by decide⟩⟩

/-- C8 (amended): `raw_progress` returns the recorded-result count and twice
the non-skipped crate count; when `expected ≠ 0`, `progress` computes
`completed × 100 / expected` in `f32` arithmetic, takes its ceiling and
saturates it to 255 (the `as u8` cast), and returns `0` otherwise; it is `0`
whenever no results exist; and whenever `expected ≤ 102` the `f32`
arithmetic is exact, so for `completed ≤ expected` the result is the exact
ceiling of `completed × 100 / expected`, lies in `0–100`, is `0` exactly
when no results exist, and is `100` exactly when `expected ≠ 0` and
`100 × completed > 99 × expected` (in particular when
`completed = expected ≠ 0`, but also for some `completed < expected`);
outside such ranges `f32` rounding error can push the result above 100. -/
theorem c8_progress_accounting (db : Database) (name : String) :
    ((rawProgress db name).2 = 0 → progress db name = 0) ∧
    ((rawProgress db name).2 ≠ 0 →
      progress db name =
        f32CeilPercent (rawProgress db name).1 (rawProgress db name).2) ∧
    ((rawProgress db name).1 = 0 → progress db name = 0) ∧
    ((rawProgress db name).2 ≤ 102 →
     (rawProgress db name).1 ≤ (rawProgress db name).2 →
      (progress db name =
         ((rawProgress db name).1 * 100 + (rawProgress db name).2 - 1) /
           (rawProgress db name).2 ∧
       progress db name ≤ 100 ∧
       (progress db name = 0 ↔ (rawProgress db name).1 = 0) ∧
       (progress db name = 100 ↔
         ((rawProgress db name).2 ≠ 0 ∧
          99 * (rawProgress db name).2 < 100 * (rawProgress db name).1)))) := by
  have hdef : progress db name =
      if (rawProgress db name).2 ≠ 0 then
        f32CeilPercent (rawProgress db name).1 (rawProgress db name).2
      else 0 := rfl
  refine ⟨?_, ?_, ?_, ?_⟩
  · intro h0
    rw [hdef, if_neg (by simp [h0])]
  · intro hne
    rw [hdef, if_pos hne]
  · intro hc
    rw [hdef, hc]
    by_cases he : (rawProgress db name).2 = 0
    · rw [if_neg (by simp [he])]
    · rw [if_pos he, f32CeilPercent_zero]
  · intro hb hle
    by_cases he : (rawProgress db name).2 = 0
    · have hc : (rawProgress db name).1 = 0 := by omega
      rw [hdef]
      simp [he, hc]
    · have hex := f32CeilPercent_exact _ hb _ hle
      have hp := ceil_percent_props _ _ hle he
      rw [hdef, if_pos he, hex]
      refine ⟨rfl, hp.1, hp.2.1, ?_⟩
      constructor
      · intro hx
        exact ⟨he, hp.2.2.mp hx⟩
      · rintro ⟨-, hl⟩
        exact hp.2.2.mpr hl

/-- C8 (witness): the bounded-range progress properties applied to the
concrete store with 101 of 102 units complete. -/
theorem c8_progress_accounting_witness :
    (rawProgress wDb8 "exp").2 ≤ 102 ∧
    (rawProgress wDb8 "exp").1 ≤ (rawProgress wDb8 "exp").2 ∧
    progress wDb8 "exp" ≤ 100 :=
  ⟨by decide, by decide,
   (((c8_progress_accounting wDb8 "exp").2.2.2 (by decide) (by decide)).2.1)⟩

/-! ### C9 — uncompleted crates -/

/-- C9: `get_uncompleted_crates` returns exactly the experiment's crates
with fewer than two recorded results; in the concrete scenario with two
crates and three results split 2/1, it returns exactly the crate with one
result. -/
theorem c9_uncompleted_crates :
    (∀ (db : Database) (name c : String),
      c ∈ getUncompletedCrates db name ↔
        ∃ row ∈ db.experiment_crates, row.experiment = name ∧
          row.crate = c ∧
          db.results.countP (fun r =>
            decide (r.experiment = name ∧ r.crate = c)) < 2) ∧
    getUncompletedCrates wDb9 "e" = ["crate-b"] := by
  constructor
  · intro db name c
    rw [getUncompletedCrates]
    simp only [List.mem_map, List.mem_filter, Bool.and_eq_true,
      decide_eq_true_eq]
    constructor
    · rintro ⟨row, ⟨hmem, hexp, hcount⟩, hcrate⟩
      rw [hcrate] at hcount
      exact ⟨row, hmem, hexp, hcrate, hcount⟩
    · rintro ⟨row, hmem, hexp, hcrate, hcount⟩
      rw [← hcrate] at hcount
      exact ⟨row, ⟨hmem, hexp, hcount⟩, hcrate⟩
  · rfl

/-! ### C10 — partial GitHub-issue rows -/

/-- `exceptOk` detects exactly the ok results. -/
theorem exceptOk_iff {ε α : Type} (x : Except ε α) :
    exceptOk x = true ↔ ∃ v, x = .ok v := by
  cases x <;> simp [exceptOk]

/-- Successful row conversion, spelled out: when every string-backed field
parses, `into_experiment` produces exactly this domain object. -/
theorem intoExperiment_eq_ok (r : ExperimentDBRecord) (cap : CapLints)
    (m : Mode) (st : Status) (oa : Option Assignee)
    (hcap : CapLints.fromStr r.cap_lints = .ok cap)
    (hm : Mode.fromStr r.mode = .ok m)
    (hst : Status.fromStr r.status = .ok st)
    (hoa : (match r.assigned_to with
      | some s =>
        match Assignee.fromStr s with
        | .ok a => Except.ok (some a)
        | .error e => Except.error (ConvError.assignee e)
      | none => Except.ok none) = Except.ok oa) :
    intoExperiment r = .ok
      { name := r.name, toolchains := (r.toolchain_start, r.toolchain_end),
        mode := m, cap_lints := cap, priority := r.priority,
        created_at := r.created_at, started_at := r.started_at,
        completed_at := r.completed_at,
        github_issue :=
          match r.github_issue, r.github_issue_url,
              r.github_issue_number with
          | some api, some html, some num => some ⟨api, html, num⟩
          | _, _, _ => none,
        status := st, assigned_to := oa, report_url := r.report_url,
        ignore_blacklist := r.ignore_blacklist,
        requirement := r.requirement } := by
  cases hra : r.assigned_to with
  | none =>
    rw [hra] at hoa
    dsimp only at hoa
    have hoa' : (none : Option Assignee) = oa := Except.ok.inj hoa
    subst hoa'
    simp [intoExperiment, parseToolchain, Bind.bind, Except.bind, hcap, hm,
      hst, hra]
  | some s =>
    rw [hra] at hoa
    dsimp only at hoa
    cases hpa : Assignee.fromStr s with
    | error err =>
      rw [hpa] at hoa
      exact Except.noConfusion hoa
    | ok a =>
      rw [hpa] at hoa
      have hoa' : some a = oa := Except.ok.inj hoa
      subst hoa'
      simp [intoExperiment, parseToolchain, Bind.bind, Except.bind, hcap,
        hm, hst, hra, hpa]

/-- C10: converting a stored row succeeds even when the three GitHub-issue
columns are not all present (provided the other string-backed fields parse),
and the domain object's `github_issue` is `some` exactly when all three
columns are present. -/
theorem c10_partial_github_rows (r : ExperimentDBRecord)
    (hm : exceptOk (Mode.fromStr r.mode) = true)
    (hcap : exceptOk (CapLints.fromStr r.cap_lints) = true)
    (hst : exceptOk (Status.fromStr r.status) = true)
    (ha : ∀ s, r.assigned_to = some s →
      exceptOk (Assignee.fromStr s) = true) :
    ∃ e, intoExperiment r = .ok e ∧
      e.github_issue.isSome =
        (r.github_issue.isSome && r.github_issue_url.isSome &&
         r.github_issue_number.isSome) := by
  obtain ⟨m, hm'⟩ := (exceptOk_iff _).mp hm
  obtain ⟨cap, hcap'⟩ := (exceptOk_iff _).mp hcap
  obtain ⟨st, hst'⟩ := (exceptOk_iff _).mp hst
  have key : ∀ oa, (match r.assigned_to with
      | some s =>
        match Assignee.fromStr s with
        | .ok a => Except.ok (some a)
        | .error e => Except.error (ConvError.assignee e)
      | none => Except.ok none) = Except.ok oa →
      ∃ e, intoExperiment r = .ok e ∧
        e.github_issue.isSome =
          (r.github_issue.isSome && r.github_issue_url.isSome &&
           r.github_issue_number.isSome) := by
    intro oa hoa
    refine ⟨_, intoExperiment_eq_ok r cap m st oa hcap' hm' hst' hoa, ?_⟩
    cases hgi : r.github_issue <;> cases hgu : r.github_issue_url <;>
      cases hgn : r.github_issue_number <;> simp
  cases hra : r.assigned_to with
  | none => exact key none (by rw [hra])
  | some s =>
    obtain ⟨a, hpa⟩ := (exceptOk_iff _).mp (ha s hra)
    refine key (some a) ?_
    rw [hra]
    dsimp only
    rw [hpa]

/-- C10 (witness): the row with only the api-url column present converts
successfully (and, by direct evaluation, yields no GitHub issue). -/
theorem c10_partial_github_rows_witness :
    exceptOk (intoExperiment wRec) = true ∧
    wRec.github_issue.isSome = true ∧
    wRec.github_issue_url.isSome = false := by
  refine ⟨?_, by decide, by decide⟩
  obtain ⟨e, he, -⟩ := c10_partial_github_rows wRec rfl rfl rfl
    (fun _ h => Option.noConfusion h)
  rw [he]
  rfl

/-! ### Scheduler helper lemmas -/

theorem keyLt_irrefl (a : Nat × Int × Nat) : ¬ keyLt a a := by
  obtain ⟨x, y, z⟩ := a
  simp only [keyLt]
  omega

theorem keyLt_asymm (a b : Nat × Int × Nat) (h : keyLt a b) : ¬ keyLt b a := by
  obtain ⟨x1, y1, z1⟩ := a
  obtain ⟨x2, y2, z2⟩ := b
  simp only [keyLt] at h ⊢
  omega

theorem keyLt_neg_trans (a b c : Nat × Int × Nat)
    (h1 : ¬ keyLt a b) (h2 : ¬ keyLt b c) : ¬ keyLt a c := by
  obtain ⟨x1, y1, z1⟩ := a
  obtain ⟨x2, y2, z2⟩ := b
  obtain ⟨x3, y3, z3⟩ := c
  simp only [keyLt] at h1 h2 ⊢
  omega

theorem betterRow_self (r : ExperimentDBRecord) : betterRow r r = false :=
  decide_eq_false (keyLt_irrefl _)

theorem betterRow_asymm (r s : ExperimentDBRecord)
    (h : betterRow r s = true) : betterRow s r = false :=
  decide_eq_false (keyLt_asymm _ _ (of_decide_eq_true h))

theorem betterRow_false_trans (x y z : ExperimentDBRecord)
    (h1 : betterRow x y = false) (h2 : betterRow y z = false) :
    betterRow x z = false :=
  decide_eq_false
    (keyLt_neg_trans _ _ _ (of_decide_eq_false h1) (of_decide_eq_false h2))

theorem selectBest_eq_none (l : List ExperimentDBRecord) :
    selectBest l = none ↔ l = [] := by
  cases l with
  | nil => simp [selectBest]
  | cons r rest =>
    cases h : selectBest rest with
    | none => simp [selectBest, h]
    | some s => by_cases hb : betterRow s r <;> simp [selectBest, h, hb]

theorem selectBest_mem (l : List ExperimentDBRecord) (r : ExperimentDBRecord)
    (h : selectBest l = some r) : r ∈ l := by
  induction l generalizing r with
  | nil => simp [selectBest] at h
  | cons x rest ih =>
    cases hsr : selectBest rest with
    | none =>
      simp [selectBest, hsr] at h
      simp [h]
    | some s =>
      by_cases hb : betterRow s x
      · simp [selectBest, hsr, hb] at h
        exact List.mem_cons_of_mem _ (ih r (h ▸ hsr))
      · simp [selectBest, hsr, hb] at h
        simp [h]

theorem selectBest_min (l : List ExperimentDBRecord) (r : ExperimentDBRecord)
    (h : selectBest l = some r) : ∀ x ∈ l, betterRow x r = false := by
  induction l generalizing r with
  | nil => simp [selectBest] at h
  | cons y rest ih =>
    intro x hx
    cases hsr : selectBest rest with
    | none =>
      have hrest : rest = [] := (selectBest_eq_none rest).mp hsr
      subst hrest
      simp [selectBest] at h
      simp at hx
      rw [hx, ← h]
      exact betterRow_self y
    | some s =>
      have hsmin := ih s hsr
      by_cases hb : betterRow s y
      · have hr : s = r := by simp [selectBest, hsr, hb] at h; exact h
        subst hr
        rcases List.mem_cons.mp hx with hxy | hxr
        · rw [hxy]
          exact betterRow_asymm s y hb
        · exact hsmin x hxr
      · have hr : y = r := by simp [selectBest, hsr, hb] at h; exact h
        subst hr
        rcases List.mem_cons.mp hx with hxy | hxr
        · rw [hxy]
          exact betterRow_self y
        · exact betterRow_false_trans x s y (hsmin x hxr)
            (by simpa using hb)

theorem runBy_eq_none_iff (db : Database) (a : Assignee) :
    runBy db a = .ok none ↔
      ∀ r ∈ db.experiments, runByFilter a r = false := by
  cases hf : db.experiments.find? (runByFilter a) with
  | none =>
    constructor
    · intro _ r hr
      have := List.find?_eq_none.mp hf r hr
      simpa using this
    · intro _
      rw [runBy, hf]
  | some r =>
    constructor
    · intro h
      exfalso
      rw [runBy, hf] at h
      dsimp only at h
      cases hir : intoExperiment r <;> rw [hir] at h <;>
        simp [Except.map] at h
    · intro hall
      exfalso
      have h1 := List.find?_some hf
      have h2 := List.mem_of_find?_eq_some hf
      rw [hall r h2] at h1
      exact Bool.noConfusion h1

theorem runBy_eq_some (db : Database) (a : Assignee) (e : Experiment)
    (h : runBy db a = .ok (some e)) :
    ∃ r, db.experiments.find? (runByFilter a) = some r ∧
      intoExperiment r = .ok e := by
  rw [runBy] at h
  cases hf : db.experiments.find? (runByFilter a) with
  | none =>
    rw [hf] at h
    exact Option.noConfusion (Except.ok.inj h)
  | some r =>
    rw [hf] at h
    dsimp only at h
    cases hir : intoExperiment r with
    | error err => rw [hir] at h; simp [Except.map] at h
    | ok e' =>
      rw [hir] at h
      simp [Except.map] at h
      exact ⟨r, rfl, by rw [hir, h]⟩

/-- The fields of any successfully converted row. -/
theorem intoExperiment_ok_fields (r : ExperimentDBRecord) (e : Experiment)
    (h : intoExperiment r = .ok e) :
    e.name = r.name ∧ e.toolchains = (r.toolchain_start, r.toolchain_end) ∧
    Mode.fromStr r.mode = .ok e.mode ∧
    CapLints.fromStr r.cap_lints = .ok e.cap_lints ∧
    e.priority = r.priority ∧ e.created_at = r.created_at ∧
    e.started_at = r.started_at ∧ e.completed_at = r.completed_at ∧
    Status.fromStr r.status = .ok e.status ∧
    ((r.assigned_to = none ∧ e.assigned_to = none) ∨
      (∃ s a, r.assigned_to = some s ∧ Assignee.fromStr s = .ok a ∧
        e.assigned_to = some a)) ∧
    e.report_url = r.report_url ∧
    e.ignore_blacklist = r.ignore_blacklist ∧
    e.requirement = r.requirement := by
  cases hcap : CapLints.fromStr r.cap_lints with
  | error err =>
    rw [intoExperiment] at h
    simp [parseToolchain, Bind.bind, Except.bind, hcap] at h
  | ok cap =>
    cases hm : Mode.fromStr r.mode with
    | error err =>
      rw [intoExperiment] at h
      simp [parseToolchain, Bind.bind, Except.bind, hcap, hm] at h
    | ok m =>
      cases hra : r.assigned_to with
      | none =>
        cases hst : Status.fromStr r.status with
        | error err =>
          rw [intoExperiment] at h
          simp [parseToolchain, Bind.bind, Except.bind, hcap, hm, hra,
            hst] at h
        | ok st =>
          rw [intoExperiment_eq_ok r cap m st none hcap hm hst
            (by rw [hra])] at h
          have he := Except.ok.inj h
          subst he
          exact ⟨rfl, rfl, rfl, rfl, rfl, rfl, rfl, rfl, rfl,
            Or.inl ⟨rfl, rfl⟩, rfl, rfl, rfl⟩
      | some s =>
        cases hpa : Assignee.fromStr s with
        | error err =>
          rw [intoExperiment] at h
          simp [parseToolchain, Bind.bind, Except.bind, hcap, hm, hra,
            hpa] at h
        | ok a =>
          cases hst : Status.fromStr r.status with
          | error err =>
            rw [intoExperiment] at h
            simp [parseToolchain, Bind.bind, Except.bind, hcap, hm, hra,
              hpa, hst] at h
          | ok st =>
            rw [intoExperiment_eq_ok r cap m st (some a) hcap hm hst
              (by rw [hra]; dsimp only; rw [hpa])] at h
            have he := Except.ok.inj h
            subst he
            exact ⟨rfl, rfl, rfl, rfl, rfl, rfl, rfl, rfl, rfl,
              Or.inr ⟨s, a, rfl, hpa, rfl⟩, rfl, rfl, rfl⟩

/-- The store effect of a single `set_status` call. -/
theorem setStatus_fst (db : Database) (e : Experiment) (st : Status)
    (now : Nat) :
    (setStatus db e st now).1 =
      { db with experiments := db.experiments.map (fun r =>
          if r.name = e.name then
            { r with
              status := Status.toStr st,
              started_at :=
                if st = .Running ∧ e.started_at = none then some now
                else r.started_at,
              completed_at :=
                if ¬(st = .Running ∧ e.started_at = none) ∧
                    e.status = .Running ∧ e.completed_at = none ∧
                    st ≠ .Failed then some now
                else r.completed_at }
          else r) } := by
  by_cases h1 : st = .Running ∧ e.started_at = none
  · rw [setStatus, if_pos h1]
    simp only [List.map_map]
    refine congrArg (fun l => { db with experiments := l }) ?_
    refine congrArg (fun f => List.map f db.experiments) ?_
    funext r
    by_cases hr : r.name = e.name <;>
      simp [Function.comp, hr, h1]
  · by_cases h2 : e.status = .Running ∧ e.completed_at = none ∧ st ≠ .Failed
    · rw [setStatus, if_neg h1, if_pos h2]
      simp only [List.map_map]
      refine congrArg (fun l => { db with experiments := l }) ?_
      refine congrArg (fun f => List.map f db.experiments) ?_
      funext r
      by_cases hr : r.name = e.name <;>
        simp [Function.comp, hr, h1, h2]
    · rw [setStatus, if_neg h1, if_neg h2]
      refine congrArg (fun l => { db with experiments := l }) ?_
      refine congrArg (fun f => List.map f db.experiments) ?_
      funext r
      by_cases hr : r.name = e.name <;>
        simp [hr, h1, h2]

/-- The store after the claim step (`set_status(Running)` then
`set_assigned_to`) of `Experiment::next`, for a non-Running experiment. -/
theorem claim_db_update (db : Database) (exp : Experiment) (b : Assignee)
    (now : Nat) (hst : exp.status ≠ .Running) :
    (setAssignedTo (setStatus db exp .Running now).1
      (setStatus db exp .Running now).2 (some b)).1 =
    { db with experiments := db.experiments.map (fun x =>
        if x.name = exp.name then
          claimUpdateRow b now exp.started_at.isNone x else x) } := by
  rw [setAssignedTo, setStatus_fst, setStatus_snd]
  simp only [List.map_map]
  refine congrArg (fun l => { db with experiments := l }) ?_
  refine congrArg (fun f => List.map f db.experiments) ?_
  funext x
  by_cases hx : x.name = exp.name
  · cases h0 : exp.started_at with
    | none =>
      simp [Function.comp, hx, h0, hst, claimUpdateRow, Option.map]
    | some v =>
      simp [Function.comp, hx, h0, hst, claimUpdateRow, Option.map]
  · simp [Function.comp, hx]

/-- The in-memory experiment after the claim step of `Experiment::next`,
for a non-Running experiment. -/
theorem claim_exp_update (db : Database) (exp : Experiment) (b : Assignee)
    (now : Nat) (hst : exp.status ≠ .Running) :
    (setAssignedTo (setStatus db exp .Running now).1
      (setStatus db exp .Running now).2 (some b)).2 =
    { exp with
      status := Status.Running,
      started_at :=
        if exp.started_at.isNone then some now else exp.started_at,
      assigned_to := some b } := by
  rw [setAssignedTo, setStatus_snd]
  cases h0 : exp.started_at with
  | none => simp [h0, hst]
  | some v => simp [h0, hst]

/-! ### C2 — candidate selection -/

/-- C2: when no Running experiment is assigned to the assignee, `next`
considers exactly the rows passing the candidate filter (Queued, unassigned
or pre-assigned to this assignee, and — for a named agent only — requirement
absent or among the agent's capabilities; the CLI actor gets no capability
filter).  If the candidate set is empty, `next` returns `None` and leaves
the store unchanged; otherwise it picks a candidate no other candidate
strictly precedes in the order (pre-assigned first, then higher priority,
then earlier creation), claims it by setting status Running then
`assigned_to`, and returns `(true, it)`. -/
theorem c2_candidate_selection (db : Database) (a : Assignee) (now : Nat)
    (hwf : ∀ r ∈ db.experiments, exceptOk (intoExperiment r) = true)
    (hnr : ∀ r ∈ db.experiments, runByFilter a r = false) :
    (db.experiments.filter (candFilter db a) = [] ∧
      next db a now = (.ok none, db)) ∨
    (∃ r, r ∈ db.experiments ∧ candFilter db a r = true ∧
      (∀ s ∈ db.experiments, candFilter db a s = true →
        betterRow s r = false) ∧
      ∃ E, next db a now =
          (.ok (some (true, E)),
           { db with experiments := db.experiments.map (fun x =>
              if x.name = r.name then
                claimUpdateRow a now r.started_at.isNone x else x) }) ∧
        E.name = r.name ∧ E.status = .Running ∧ E.assigned_to = some a ∧
        E.priority = r.priority ∧ E.created_at = r.created_at) := by
  have hrb : runBy db a = .ok none := (runBy_eq_none_iff db a).mpr hnr
  cases hsel : selectBest (db.experiments.filter (candFilter db a)) with
  | none =>
    left
    refine ⟨(selectBest_eq_none _).mp hsel, ?_⟩
    simp only [next, hrb, hsel]
  | some r =>
    right
    have hmemf := selectBest_mem _ _ hsel
    rw [List.mem_filter] at hmemf
    obtain ⟨hmem, hcf⟩ := hmemf
    obtain ⟨exp, hexp⟩ := (exceptOk_iff _).mp (hwf r hmem)
    have hf := intoExperiment_ok_fields r exp hexp
    have hname : exp.name = r.name := hf.1
    have hsa : exp.started_at = r.started_at := hf.2.2.2.2.2.2.1
    have hstatus : Status.fromStr r.status = .ok exp.status :=
      hf.2.2.2.2.2.2.2.2.1
    have hq : r.status = "queued" := by
      have hcf' := hcf
      simp only [candFilter, Bool.and_eq_true, decide_eq_true_eq] at hcf'
      exact hcf'.1.1
    have hqs : exp.status = Status.Queued := by
      rw [hq] at hstatus
      have h' : Except.ok Status.Queued = Except.ok exp.status := hstatus
      exact (Except.ok.inj h').symm
    have hnotrun : exp.status ≠ Status.Running := by
      rw [hqs]
      decide
    refine ⟨r, hmem, hcf, ?_, ?_⟩
    · intro s hs hcs
      exact selectBest_min _ _ hsel s (List.mem_filter.mpr ⟨hs, hcs⟩)
    · refine ⟨(setAssignedTo (setStatus db exp .Running now).1
        (setStatus db exp .Running now).2 (some a)).2, ?_, ?_, ?_, ?_, ?_,
        ?_⟩
      · have h1 : next db a now =
            (.ok (some (true,
              (setAssignedTo (setStatus db exp .Running now).1
                (setStatus db exp .Running now).2 (some a)).2)),
             (setAssignedTo (setStatus db exp .Running now).1
                (setStatus db exp .Running now).2 (some a)).1) := by
          simp only [next, hrb, hsel, hexp]
        rw [h1, claim_db_update db exp a now hnotrun, hname, hsa]
      · rw [claim_exp_update db exp a now hnotrun]
        exact hname
      · rw [claim_exp_update db exp a now hnotrun]
      · rw [claim_exp_update db exp a now hnotrun]
      · rw [claim_exp_update db exp a now hnotrun]
        exact hf.2.2.2.2.1
      · rw [claim_exp_update db exp a now hnotrun]
        exact hf.2.2.2.2.2.1

/-- C2 (witness): the candidate-selection contract applied to a store with
one queued row and the agent `"b"`: the candidate set is non-empty and the
poll claims the queued row. -/
theorem c2_candidate_selection_witness :
    (next wDb2 (Assignee.Agent "b") 5).1 ≠ .ok none ∧
    (next wDb2 (Assignee.Agent "b") 5).1 =
      .ok (some (true, wExpClaimed)) := by
  constructor
  · rcases c2_candidate_selection wDb2 (Assignee.Agent "b") 5 (by decide)
        (by decide) with ⟨hemp, -⟩ | ⟨r, -, -, -, E, hnext, -⟩
    · exact absurd hemp (by decide)
    · rw [show (next wDb2 (Assignee.Agent "b") 5).1 =
          Except.ok (some (true, E)) from congrArg Prod.fst hnext]
      simp
  · decide

/-! ### C1 — idempotent re-poll -/

/-- In a list with pairwise-distinct names, none of whose rows matches `p`,
updating the single row named like `r` to a matching row makes `find?`
return exactly that updated row. -/
theorem find_first_match (l : List ExperimentDBRecord)
    (p : ExperimentDBRecord → Bool)
    (g : ExperimentDBRecord → ExperimentDBRecord)
    (r : ExperimentDBRecord) (hmem : r ∈ l)
    (hnodup : (l.map (fun x => x.name)).Nodup)
    (hold : ∀ x ∈ l, p x = false)
    (hgr : p (g r) = true)
    (hg_other : ∀ x, x.name ≠ r.name → g x = x) :
    (l.map g).find? p = some (g r) := by
  induction l with
  | nil => simp at hmem
  | cons y rest ih =>
    rw [List.map_cons]
    by_cases hy : y.name = r.name
    · have hyr : y = r := by
        rcases List.mem_cons.mp hmem with h | h
        · exact h.symm
        · exfalso
          have hin : r.name ∈ rest.map (fun x => x.name) :=
            List.mem_map_of_mem _ h
          have hnotin := (List.nodup_cons.mp hnodup).1
          apply hnotin
          simpa [hy] using hin
      subst hyr
      exact List.find?_cons_of_pos _ hgr
    · have hgy : g y = y := hg_other y hy
      rw [hgy, List.find?_cons_of_neg _ (by
        rw [hold y (List.mem_cons_self y rest)]
        exact Bool.false_ne_true)]
      apply ih
      · rcases List.mem_cons.mp hmem with h | h
        · exact absurd (congrArg (fun x => x.name) h.symm) hy
        · exact h
      · exact (List.nodup_cons.mp hnodup).2
      · intro x hx
        exact hold x (List.mem_cons_of_mem _ hx)

/-- C1: after `next` has freshly claimed an experiment for a well-formed
assignee (returning `(true, E)`), an immediate second `next` for the same
assignee returns `(false, E2)` with the same name, status (Running) and
`assigned_to` as `E`, and performs no store mutation. -/
theorem c1_idempotent_repoll (db : Database) (a : Assignee)
    (now now2 : Nat) (E : Experiment)
    (hwf : wfAssignee a = true)
    (hnodup : (db.experiments.map (fun r => r.name)).Nodup)
    (hrun : (next db a now).1 = .ok (some (true, E))) :
    ∃ E2, next (next db a now).2 a now2 =
        (.ok (some (false, E2)), (next db a now).2) ∧
      E2.name = E.name ∧ E2.status = E.status ∧
      E2.assigned_to = E.assigned_to := by
  cases hrb : runBy db a with
  | error err => simp [next, hrb] at hrun
  | ok oe =>
    cases oe with
    | some e0 => simp [next, hrb] at hrun
    | none =>
      cases hsel : selectBest (db.experiments.filter (candFilter db a)) with
      | none => simp [next, hrb, hsel] at hrun
      | some r =>
        cases hexp : intoExperiment r with
        | error err => simp [next, hrb, hsel, hexp] at hrun
        | ok exp =>
          have hE : (setAssignedTo (setStatus db exp .Running now).1
              (setStatus db exp .Running now).2 (some a)).2 = E := by
            have h0 := hrun
            simp only [next, hrb, hsel, hexp] at h0
            simpa using h0
          have hdb : (next db a now).2 =
              (setAssignedTo (setStatus db exp .Running now).1
                (setStatus db exp .Running now).2 (some a)).1 := by
            simp only [next, hrb, hsel, hexp]
          have hmemf := selectBest_mem _ _ hsel
          rw [List.mem_filter] at hmemf
          obtain ⟨hmem, hcf⟩ := hmemf
          have hf := intoExperiment_ok_fields r exp hexp
          have hname : exp.name = r.name := hf.1
          have hq : r.status = "queued" := by
            have hcf' := hcf
            simp only [candFilter, Bool.and_eq_true,
              decide_eq_true_eq] at hcf'
            exact hcf'.1.1
          have hqs : exp.status = Status.Queued := by
            have hstatus := hf.2.2.2.2.2.2.2.2.1
            rw [hq] at hstatus
            have h' : Except.ok Status.Queued = Except.ok exp.status :=
              hstatus
            exact (Except.ok.inj h').symm
          have hnotrun : exp.status ≠ Status.Running := by
            rw [hqs]
            decide
          have hdb2 : (next db a now).2 =
              { db with experiments := db.experiments.map (fun x =>
                  if x.name = r.name then
                    claimUpdateRow a now exp.started_at.isNone x
                  else x) } := by
            rw [hdb, claim_db_update db exp a now hnotrun, hname]
          have hfind : ((next db a now).2).experiments.find?
              (runByFilter a) =
              some (claimUpdateRow a now exp.started_at.isNone r) := by
            rw [hdb2]
            dsimp only
            have h0 := find_first_match db.experiments (runByFilter a)
              (fun x => if x.name = r.name then
                claimUpdateRow a now exp.started_at.isNone x else x)
              r hmem hnodup
              (fun x hx => (runBy_eq_none_iff db a).mp hrb x hx)
              (by simp [claimUpdateRow, runByFilter])
              (fun x hxname => by simp [hxname])
            rw [h0]
            exact congrArg some (if_pos rfl)
          have hparse := intoExperiment_eq_ok
            (claimUpdateRow a now exp.started_at.isNone r)
            exp.cap_lints exp.mode .Running (some a)
            (hf.2.2.2.1) (hf.2.2.1) rfl
            (by
              show (match some (assigneeToString a) with
                | some s =>
                  match Assignee.fromStr s with
                  | .ok a' => Except.ok (some a')
                  | .error e => Except.error (ConvError.assignee e)
                | none => Except.ok none) = Except.ok (some a)
              dsimp only
              rw [assignee_round_trip a hwf])
          have hrb2x : ∃ E2, runBy ((next db a now).2) a =
              .ok (some E2) ∧ E2.name = r.name ∧ E2.status = .Running ∧
              E2.assigned_to = some a := by
            refine ⟨{
              name := r.name
              toolchains := (r.toolchain_start, r.toolchain_end)
              mode := exp.mode
              cap_lints := exp.cap_lints
              priority := r.priority
              created_at := r.created_at
              started_at :=
                if exp.started_at.isNone then some now else r.started_at
              completed_at := r.completed_at
              github_issue :=
                match r.github_issue, r.github_issue_url,
                    r.github_issue_number with
                | some api, some html, some num => some ⟨api, html, num⟩
                | _, _, _ => none
              status := .Running
              assigned_to := some a
              report_url := r.report_url
              ignore_blacklist := r.ignore_blacklist
              requirement := r.requirement }, ?_, rfl, rfl, rfl⟩
            rw [runBy, hfind]
            dsimp only
            rw [hparse]
            rfl
          obtain ⟨E2, hrb2, hn2, hs2, ha2⟩ := hrb2x
          refine ⟨E2, ?_, ?_, ?_, ?_⟩
          · obtain ⟨db2, hgen⟩ : ∃ db2, (next db a now).2 = db2 := ⟨_, rfl⟩
            rw [hgen] at hrb2 ⊢
            simp only [next, hrb2]
          · rw [hn2, ← hE, claim_exp_update db exp a now hnotrun]
            exact hname.symm
          · rw [hs2, ← hE, claim_exp_update db exp a now hnotrun]
          · rw [ha2, ← hE, claim_exp_update db exp a now hnotrun]

/-- C1 (witness): the re-poll contract applied to a store with one queued
row, claimed by the agent `"b"` and immediately re-polled: the second poll
mutates nothing. -/
theorem c1_idempotent_repoll_witness :
    wfAssignee (Assignee.Agent "b") = true ∧
    (next (next wDb2 (Assignee.Agent "b") 5).2 (Assignee.Agent "b") 6).2 =
      (next wDb2 (Assignee.Agent "b") 5).2 := by
  constructor
  · decide
  · obtain ⟨E2, heq, -, -, -⟩ := c1_idempotent_repoll wDb2
      (Assignee.Agent "b") 5 6 wExpClaimed (by decide) (by decide)
      (by decide)
    rw [heq]

/-! ### C3 — no double assignment -/

/-- A poll by any assignee leaves every row named `nE` untouched when all
rows of that name are Running and assigned to `A`: the re-poll branch never
mutates, and the claim branch only updates rows named after a queued
candidate, which cannot be named `nE`. -/
theorem next_preserves_foreign_row (db : Database) (nE : String)
    (A : Assignee)
    (hinv : ∀ r ∈ db.experiments, r.name = nE →
      r.status = Status.toStr .Running ∧
      r.assigned_to = some (assigneeToString A))
    (b : Assignee) (t : Nat) :
    ∀ r ∈ (next db b t).2.experiments, r.name = nE →
      r.status = Status.toStr .Running ∧
      r.assigned_to = some (assigneeToString A) := by
  cases hrb : runBy db b with
  | error err =>
    intro r hr
    simp only [next, hrb] at hr
    exact hinv r hr
  | ok oe =>
    cases oe with
    | some e0 =>
      intro r hr
      simp only [next, hrb] at hr
      exact hinv r hr
    | none =>
      cases hsel : selectBest (db.experiments.filter (candFilter db b)) with
      | none =>
        intro r hr
        simp only [next, hrb, hsel] at hr
        exact hinv r hr
      | some c =>
        cases hexp : intoExperiment c with
        | error err =>
          intro r hr
          simp only [next, hrb, hsel, hexp] at hr
          exact hinv r hr
        | ok exp =>
          have hmemf := selectBest_mem _ _ hsel
          rw [List.mem_filter] at hmemf
          obtain ⟨hmem, hcf⟩ := hmemf
          have hq : c.status = "queued" := by
            have hcf' := hcf
            simp only [candFilter, Bool.and_eq_true,
              decide_eq_true_eq] at hcf'
            exact hcf'.1.1
          have hcname : c.name ≠ nE := by
            intro hh
            have hrow := (hinv c hmem hh).1
            rw [hq] at hrow
            exact absurd hrow (by decide)
          have hf := intoExperiment_ok_fields c exp hexp
          have hname : exp.name = c.name := hf.1
          have hqs : exp.status = Status.Queued := by
            have hstatus := hf.2.2.2.2.2.2.2.2.1
            rw [hq] at hstatus
            have h' : Except.ok Status.Queued = Except.ok exp.status :=
              hstatus
            exact (Except.ok.inj h').symm
          have hnotrun : exp.status ≠ Status.Running := by
            rw [hqs]
            decide
          have hdb2 : (next db b t).2 =
              { db with experiments := db.experiments.map (fun x =>
                  if x.name = c.name then
                    claimUpdateRow b t exp.started_at.isNone x else x) } := by
            have hdb : (next db b t).2 =
                (setAssignedTo (setStatus db exp .Running t).1
                  (setStatus db exp .Running t).2 (some b)).1 := by
              simp only [next, hrb, hsel, hexp]
            rw [hdb, claim_db_update db exp b t hnotrun, hname]
          intro r hr hrname
          rw [hdb2] at hr
          dsimp only at hr
          obtain ⟨x, hxmem, hx⟩ := List.mem_map.mp hr
          by_cases hxn : x.name = c.name
          · exfalso
            rw [if_pos hxn] at hx
            have hrx : r.name = x.name := by
              rw [← hx]
              rfl
            apply hcname
            rw [← hxn, ← hrx, hrname]
          · rw [if_neg hxn] at hx
            rw [← hx]
            exact hinv x hxmem (by rw [hx]; exact hrname)

/-- A poll by an assignee `b ≠ A` never returns an experiment named `nE`
when every row of that name is Running and assigned to `A`. -/
theorem next_no_foreign_return (db : Database) (nE : String) (A : Assignee)
    (hinv : ∀ r ∈ db.experiments, r.name = nE →
      r.status = Status.toStr .Running ∧
      r.assigned_to = some (assigneeToString A))
    (b : Assignee) (t : Nat) (hb : b ≠ A) (fl : Bool) (e : Experiment)
    (h : (next db b t).1 = .ok (some (fl, e))) :
    e.name ≠ nE := by
  cases hrb : runBy db b with
  | error err => simp [next, hrb] at h
  | ok oe =>
    cases oe with
    | some e0 =>
      have he : e0 = e := by
        simp [next, hrb] at h
        exact h.2
      obtain ⟨x, hfind, hix⟩ := runBy_eq_some db b e0 hrb
      have hpx := List.find?_some hfind
      simp only [runByFilter, decide_eq_true_eq] at hpx
      have hxname : e0.name = x.name := (intoExperiment_ok_fields x e0 hix).1
      intro hen
      have hxnE : x.name = nE := by
        rw [← hxname, he, hen]
      have hx2 := hinv x (List.mem_of_find?_eq_some hfind) hxnE
      have heqtxt : assigneeToString b = assigneeToString A := by
        have h1 := hpx.2
        rw [hx2.2] at h1
        exact (Option.some.inj h1).symm
      exact hb (assigneeToString_inj b A heqtxt)
    | none =>
      cases hsel : selectBest (db.experiments.filter (candFilter db b)) with
      | none => simp [next, hrb, hsel] at h
      | some c =>
        cases hexp : intoExperiment c with
        | error err => simp [next, hrb, hsel, hexp] at h
        | ok exp =>
          have he : (setAssignedTo (setStatus db exp .Running t).1
              (setStatus db exp .Running t).2 (some b)).2 = e := by
            simp [next, hrb, hsel, hexp] at h
            exact h.2
          have hmemf := selectBest_mem _ _ hsel
          rw [List.mem_filter] at hmemf
          obtain ⟨hmem, hcf⟩ := hmemf
          have hq : c.status = "queued" := by
            have hcf' := hcf
            simp only [candFilter, Bool.and_eq_true,
              decide_eq_true_eq] at hcf'
            exact hcf'.1.1
          have hf := intoExperiment_ok_fields c exp hexp
          have hname : exp.name = c.name := hf.1
          have hqs : exp.status = Status.Queued := by
            have hstatus := hf.2.2.2.2.2.2.2.2.1
            rw [hq] at hstatus
            have h' : Except.ok Status.Queued = Except.ok exp.status :=
              hstatus
            exact (Except.ok.inj h').symm
          have hnotrun : exp.status ≠ Status.Running := by
            rw [hqs]
            decide
          have hcn : e.name = c.name := by
            rw [← he, claim_exp_update db exp b t hnotrun]
            exact hname
          intro hen
          have hcnE : c.name = nE := by rw [← hcn, hen]
          have hrow := (hinv c hmem hcnE).1
          rw [hq] at hrow
          exact absurd hrow (by decide)

/-- C3: once experiment `nE` is Running and assigned to `A`, no sequence of
`next` polls (with no external status changes) ever returns an experiment
named `nE` to any assignee `b ≠ A`. -/
theorem c3_no_double_assignment (db0 : Database) (A : Assignee)
    (nE : String) (bs : List (Assignee × Nat))
    (hinv : ∀ r ∈ db0.experiments, r.name = nE →
      r.status = Status.toStr .Running ∧
      r.assigned_to = some (assigneeToString A)) :
    ∀ pre b t post fl e, bs = pre ++ (b, t) :: post → b ≠ A →
      (next (foldDB db0 pre) b t).1 = .ok (some (fl, e)) →
      e.name ≠ nE := by
  intro pre b t post fl e _hbs hb h
  have hfold : ∀ (pre' : List (Assignee × Nat)) (db : Database),
      (∀ r ∈ db.experiments, r.name = nE →
        r.status = Status.toStr .Running ∧
        r.assigned_to = some (assigneeToString A)) →
      ∀ r ∈ (foldDB db pre').experiments, r.name = nE →
        r.status = Status.toStr .Running ∧
        r.assigned_to = some (assigneeToString A) := by
    intro pre'
    induction pre' with
    | nil =>
      intro db h0
      simpa [foldDB] using h0
    | cons x rest ih =>
      intro db h0
      have h1 := next_preserves_foreign_row db nE A h0 x.1 x.2
      have h2 := ih ((next db x.1 x.2).2) h1
      simpa [foldDB, stepDB] using h2
  exact next_no_foreign_return (foldDB db0 pre) nE A (hfold pre db0 hinv)
    b t hb fl e h

/-- C3 (witness): with `"expA"` running and assigned to agent `"a"` and a
queued row `"other"`, a poll by agent `"b"` claims `"other"`, which indeed
is not `"expA"`. -/
theorem c3_no_double_assignment_witness : wExpClaimed.name ≠ "expA" :=
  c3_no_double_assignment wDb3 (Assignee.Agent "a") "expA"
    [(Assignee.Agent "b", 5)] (by decide) [] (Assignee.Agent "b") 5 []
    true wExpClaimed rfl (by decide) (by decide)

end Crater
